import Mathlib

/-!
Verification of the DFPlayer rename tool (src/dfplayer_rename.py).

The development shallowly embeds the program: the filesystem is a pure
value (a root owning folders, each folder owning plainly named files),
`os.rename` becomes a state transformer on a directory that fails on a
name collision or a missing source (the behaviour `os.rename` exhibits
on Windows; on POSIX such collisions corrupt or abort the run as well),
and the driver threads the state explicitly.  Strings are treated at the
character-list level; digits are the ASCII digits, matching the Python
source on ASCII input.  All definitions are executable so that concrete
runs evaluate by `decide`.
-/

/-- Token of a natural-sort key: `re.split(r'(\d+)', text)` turns a name
into alternating non-digit substrings and integer-valued digit runs. -/
inductive Tok where
  | str : String → Tok
  | int : Nat → Tok
deriving DecidableEq

/-- Lowercasing as `text.lower()` does (modelled characterwise, faithful
for ASCII names). -/
def lowerStr (s : String) : String := String.mk (s.data.map Char.toLower)

/-- Numeric value of an ASCII digit character. -/
def digitVal (c : Char) : Nat := c.toNat - 48

/-- Worker of the key extraction: walks the characters of the (already
lowercased) name, in text mode (`Sum.inl` carries the pending non-digit
run) or in number mode (`Sum.inr` carries the value of the pending digit
run, accumulated exactly as `int(part)` parses it).  The emitted token
list reproduces `re.split(r'(\d+)', text)`: it starts and ends with a
possibly empty text token and alternates text and integer tokens. -/
def tokGo : Sum (List Char) Nat → List Char → List Tok
  | Sum.inl cur, [] => [Tok.str (String.mk cur)]
  | Sum.inr v, [] => [Tok.int v, Tok.str ""]
  | Sum.inl cur, c :: cs =>
    if c.isDigit then Tok.str (String.mk cur) :: tokGo (Sum.inr (digitVal c)) cs
    else tokGo (Sum.inl (cur ++ [c])) cs
  | Sum.inr v, c :: cs =>
    if c.isDigit then tokGo (Sum.inr (10 * v + digitVal c)) cs
    else Tok.int v :: tokGo (Sum.inl [c]) cs

/-- Model of `natural_sort_key`: lowercase, split on digit runs, digits
becoming integer tokens and the rest text tokens. -/
def natural_sort_key (s : String) : List Tok := tokGo (Sum.inl []) (lowerStr s).data

/-- Three-way comparison of naturals, as Python compares ints. -/
def cmpNat (a b : Nat) : Ordering :=
  if a < b then Ordering.lt else if b < a then Ordering.gt else Ordering.eq

/-- Lexicographic comparison of character lists by code point, as Python
compares strings. -/
def cmpCharList : List Char → List Char → Ordering
  | [], [] => Ordering.eq
  | [], _ :: _ => Ordering.lt
  | _ :: _, [] => Ordering.gt
  | a :: as, b :: bs =>
    if a.toNat < b.toNat then Ordering.lt
    else if b.toNat < a.toNat then Ordering.gt
    else cmpCharList as bs

/-- String comparison by code points. -/
def cmpStr (a b : String) : Ordering := cmpCharList a.data b.data

/-- Comparison of two key tokens.  Comparing a text token with an
integer token is Python's cross-type comparison, which raises
`TypeError`; the model returns `Except.error`. -/
def cmpTok : Tok → Tok → Except Unit Ordering
  | Tok.str a, Tok.str b => Except.ok (cmpStr a b)
  | Tok.int a, Tok.int b => Except.ok (cmpNat a b)
  | _, _ => Except.error ()

/-- Comparison of two keys, as Python compares lists: elementwise, the
first strict difference decides; a strict prefix sorts first. -/
def cmpTokList : List Tok → List Tok → Except Unit Ordering
  | [], [] => Except.ok Ordering.eq
  | [], _ :: _ => Except.ok Ordering.lt
  | _ :: _, [] => Except.ok Ordering.gt
  | a :: as, b :: bs =>
    match cmpTok a b with
    | Except.ok Ordering.eq => cmpTokList as bs
    | r => r

/-- Boolean ordering test used by the sort: `a` may precede `b` unless
the keys compare strictly greater. -/
def natLeB (a b : String) : Bool :=
  match cmpTokList (natural_sort_key a) (natural_sort_key b) with
  | Except.ok Ordering.gt => false
  | _ => true

/-- Relation form of `natLeB`. -/
def natLeR : String → String → Prop := fun a b => natLeB a b = true

instance : DecidableRel natLeR :=
  fun a b => inferInstanceAs (Decidable (natLeB a b = true))

/-- Sorting with `key=natural_sort_key`: a stable sort placing `a`
before `b` whenever the keys do not compare strictly greater, which is
what Python's stable `list.sort(key=...)` produces. -/
def sortNames (l : List String) : List String := List.insertionSort natLeR l

/-- Reserved marker prepended to every intermediate name in phase 1 of
the two-phase rename (the constant the source calls TEMP_PREFIX,
`"__dftemp_"`). -/
def TEMP_MARKER : String := "__dftemp_"

/-- Test whether a name carries the reserved temporary marker. -/
def startsTemp (s : String) : Bool := List.isPrefixOf TEMP_MARKER.data s.data

/-- Decimal digit characters of `n`, most significant first, via the
fuel-driven worker `decGo` (fuel `n + 1` always suffices). -/
def decGo : Nat → Nat → List Char
  | 0, _ => []
  | fuel + 1, n => if n = 0 then [] else decGo fuel (n / 10) ++ [Nat.digitChar (n % 10)]

/-- Decimal representation of a natural number. -/
def decimalChars (n : Nat) : List Char := if n = 0 then ['0'] else decGo (n + 1) n

/-- Decimal string of a natural number, as Python prints it. -/
def pyStr (n : Nat) : String := String.mk (decimalChars n)

/-- Zero-padded decimal of width `w`, the meaning of Python's
format specifier `{n:0wd}` for nonnegative `n`. -/
def pyPad (w n : Nat) : String :=
  String.mk (List.replicate (w - (decimalChars n).length) '0' ++ decimalChars n)

/-- Final name generator for folders: `f"{i + 1:02d}"`. -/
def mkFolderName (i : Nat) : String := pyPad 2 (i + 1)

/-- Final name generator for files: `f"{i + 1:03d}.mp3"`. -/
def mkFileName (i : Nat) : String := pyPad 3 (i + 1) ++ ".mp3"

/-- Case-insensitive `.mp3` extension test, `name.lower().endswith(".mp3")`. -/
def isMp3 (s : String) : Bool := List.isSuffixOf ".mp3".data (lowerStr s).data

/-- Folder entry: a directory directly under the root, owning plain
files identified by name. -/
structure Folder where
  name : String
  files : List String
deriving DecidableEq

/-- State of the volume: the root directory owning its folders.  The
listing order of the lists stands for the (arbitrary) `os.listdir`
order; a real directory never lists one name twice, which the theorems
assume through `FS.wf`. -/
structure FS where
  folders : List Folder
deriving DecidableEq

/-- Well-formedness of a directory tree: sibling names are distinct. -/
def FS.wf (fs : FS) : Prop :=
  (fs.folders.map Folder.name).Nodup ∧ ∀ f ∈ fs.folders, f.files.Nodup

instance : DecidablePred FS.wf := fun fs =>
  inferInstanceAs (Decidable ((fs.folders.map Folder.name).Nodup ∧ ∀ f ∈ fs.folders, f.files.Nodup))

/-- Model of `collect_folders`: the subdirectory names in natural-sort
order. -/
def collect_folders (fs : FS) : List String := sortNames (fs.folders.map Folder.name)

/-- Model of `collect_mp3s`: the `.mp3` names of one folder in
natural-sort order. -/
def collect_mp3s (f : Folder) : List String := sortNames (f.files.filter isMp3)

/-- Model of one `os.rename(src, dst)` inside a single directory whose
entries have type `A` with name accessor `getN` and renamer `setN`.
Renaming a present entry to its own name is the harmless no-op the
source relies on; renaming onto a distinct existing name, or renaming a
missing source, raises `OSError` (`Except.error`). -/
def osRename (getN : A → String) (setN : String → A → A) (src dst : String)
    (st : List A) : Except Unit (List A) :=
  if src ∈ st.map getN then
    if src = dst then Except.ok st
    else if dst ∈ st.map getN then Except.error ()
    else Except.ok (st.map (fun e => if getN e = src then setN dst e else e))
  else Except.error ()

/-- Phase 1 of `rename_two_phase`: rename the item at index `i` to its
marked temporary name, accumulating the temporary names and the
old-to-final mapping exactly as the source builds `temp_names` and
`mapping`. -/
def phase1 (getN : A → String) (setN : String → A → A) (mk : Nat → String) :
    List String → Nat → List A → Except Unit (List A × List String × List (String × String))
  | [], _, st => Except.ok (st, [], [])
  | old :: rest, i, st =>
    match osRename getN setN old (TEMP_MARKER ++ mk i) st with
    | Except.error _ => Except.error ()
    | Except.ok st1 =>
      match phase1 getN setN mk rest (i + 1) st1 with
      | Except.error _ => Except.error ()
      | Except.ok (st2, tmps, maps) =>
        Except.ok (st2, (TEMP_MARKER ++ mk i) :: tmps, (old, mk i) :: maps)

/-- Phase 2 of `rename_two_phase`: rename each temporary name to its
final name, in order. -/
def phase2 (getN : A → String) (setN : String → A → A) :
    List (String × String) → List A → Except Unit (List A)
  | [], st => Except.ok st
  | (tmp, fin) :: rest, st =>
    match osRename getN setN tmp fin st with
    | Except.error _ => Except.error ()
    | Except.ok st1 => phase2 getN setN rest st1

/-- Model of `rename_two_phase(items, make_final_name, base_dir)`: run
phase 1 over all items, then phase 2 over `zip(temp_names, mapping)`,
returning the new directory state and the realized mapping. -/
def rename_two_phase (getN : A → String) (setN : String → A → A)
    (items : List String) (mk : Nat → String) (st : List A) :
    Except Unit (List A × List (String × String)) :=
  match phase1 getN setN mk items 0 st with
  | Except.error _ => Except.error ()
  | Except.ok (st1, tmps, mapping) =>
    match phase2 getN setN (tmps.zip (mapping.map Prod.snd)) st1 with
    | Except.error _ => Except.error ()
    | Except.ok st2 => Except.ok (st2, mapping)

/-- Report of a completed run: per-folder file mappings, the names of
folders skipped with the no-mp3 warning, the folder mapping, and the
file tally, mirroring everything the driver prints. -/
structure Report where
  fileReports : List (String × List (String × String))
  warnings : List String
  folderMap : List (String × String)
  totalFiles : Nat
deriving DecidableEq

/-- Outcome of `process_sd_card`: normal return, `sys.exit(1)` with the
state at exit and the stderr message, or an uncaught `OSError` escaping
from a failed rename. -/
inductive PResult where
  | ok : FS → Report → PResult
  | err : FS → String → PResult
  | oserror : PResult
deriving DecidableEq

/-- Failure channel of the per-folder loop. -/
inductive LoopFail where
  | exit1 : FS → String → LoopFail
  | osfail : LoopFail

/-- Directory lookup by name under the root. -/
def findFolder (fs : FS) (n : String) : Option Folder :=
  fs.folders.find? (fun f => f.name == n)

/-- Replacement of the file list of the folder named `n`. -/
def updateFolderFiles (fs : FS) (n : String) (files : List String) : FS :=
  FS.mk (fs.folders.map (fun f => if f.name = n then Folder.mk f.name files else f))

/-- Error message for the folder-count ceiling. -/
def tooManyFoldersMsg (n : Nat) : String :=
  "Error: Found " ++ pyStr n ++ " folders but DFPlayer Mini supports at most 99."

/-- Error message for the per-folder file-count ceiling. -/
def tooManyFilesMsg (fname : String) (n : Nat) : String :=
  "Error: '" ++ fname ++ "/' contains " ++ pyStr n ++
    " .mp3 files but DFPlayer Mini supports at most 255."

/-- File-renaming pass of the driver: for each folder name in
discovery order, skip it with a warning when it holds no `.mp3` file,
fail fast when it holds more than 255, and otherwise rename its files
with the three-digit generator, accumulating the printed report. -/
def fileLoop : List String → FS → List (String × List (String × String)) →
    List String → Nat →
    Except LoopFail (FS × List (String × List (String × String)) × List String × Nat)
  | [], fs, reps, warns, total => Except.ok (fs, reps, warns, total)
  | fname :: rest, fs, reps, warns, total =>
    match findFolder fs fname with
    | none => Except.error LoopFail.osfail
    | some fol =>
      if (collect_mp3s fol).isEmpty then fileLoop rest fs reps (warns ++ [fname]) total
      else if 255 < (collect_mp3s fol).length then
        Except.error (LoopFail.exit1 fs (tooManyFilesMsg fname (collect_mp3s fol).length))
      else
        match rename_two_phase (fun s => s) (fun n _ => n) (collect_mp3s fol) mkFileName fol.files with
        | Except.error _ => Except.error LoopFail.osfail
        | Except.ok (files2, mapping) =>
          fileLoop rest (updateFolderFiles fs fname files2) (reps ++ [(fname, mapping)])
            warns (total + mapping.length)

/-- Renaming a folder keeps its contents. -/
def setFolderName (n : String) (f : Folder) : Folder := Folder.mk n f.files

/-- Model of `process_sd_card`: list and order the folders, return at
once when there are none, enforce the 99-folder ceiling, rename the
files of every folder, then rename the folders themselves with the
two-digit generator. -/
def process_sd_card (fs : FS) : PResult :=
  if (collect_folders fs).isEmpty then PResult.ok fs (Report.mk [] [] [] 0)
  else if 99 < (collect_folders fs).length then
    PResult.err fs (tooManyFoldersMsg (collect_folders fs).length)
  else
    match fileLoop (collect_folders fs) fs [] [] 0 with
    | Except.error (LoopFail.exit1 fs2 msg) => PResult.err fs2 msg
    | Except.error LoopFail.osfail => PResult.oserror
    | Except.ok (fs1, reps, warns, total) =>
      match rename_two_phase Folder.name setFolderName (collect_folders fs) mkFolderName fs1.folders with
      | Except.error _ => PResult.oserror
      | Except.ok (folders2, fmap) => PResult.ok (FS.mk folders2) (Report.mk reps warns fmap total)

/-! ### Shape of natural-sort keys -/

/-- Alternating shape of a key: a text token, then integer and text
tokens alternating, ending with a text token. -/
inductive AltKey : List Tok → Prop
  | single (s : String) : AltKey [Tok.str s]
  | cons (s : String) (n : Nat) (rest : List Tok) :
      AltKey rest → AltKey (Tok.str s :: Tok.int n :: rest)

theorem tokGo_shape (cs : List Char) :
    (∀ cur, AltKey (tokGo (Sum.inl cur) cs)) ∧
      (∀ v, ∃ w rest, tokGo (Sum.inr v) cs = Tok.int w :: rest ∧ AltKey rest) := by
  induction cs with
  | nil =>
    constructor
    · intro cur
      exact AltKey.single _
    · intro v
      exact ⟨v, [Tok.str ""], rfl, AltKey.single _⟩
  | cons c cs ih =>
    constructor
    · intro cur
      by_cases hd : c.isDigit
      · obtain ⟨w, rest, hw, hrest⟩ := ih.2 (digitVal c)
        simp only [tokGo, hd, if_true, hw]
        exact AltKey.cons _ _ _ hrest
      · simp only [tokGo, hd, if_false]
        exact ih.1 _
    · intro v
      by_cases hd : c.isDigit
      · obtain ⟨w, rest, hw, hrest⟩ := ih.2 (10 * v + digitVal c)
        exact ⟨w, rest, by simp [tokGo, hd, hw], hrest⟩
      · exact ⟨v, tokGo (Sum.inl [c]) cs, by simp [tokGo, hd], ih.1 _⟩

theorem altKey_natural_sort_key (s : String) : AltKey (natural_sort_key s) :=
  (tokGo_shape _).1 _

theorem cmpTokList_of_alt {xs ys : List Tok} (hx : AltKey xs) (hy : AltKey ys) :
    ∃ o, cmpTokList xs ys = Except.ok o := by
  induction hx generalizing ys with
  | single s =>
    cases hy with
    | single t =>
      cases h : cmpStr s t <;> simp [cmpTokList, cmpTok, h]
    | cons t n rest hrest =>
      cases h : cmpStr s t <;> simp [cmpTokList, cmpTok, h]
  | cons s n rest hrest ih =>
    cases hy with
    | single t =>
      cases h : cmpStr s t <;> simp [cmpTokList, cmpTok, h]
    | cons t m rest2 hrest2 =>
      cases h : cmpStr s t with
      | lt => exact ⟨Ordering.lt, by simp [cmpTokList, cmpTok, h]⟩
      | gt => exact ⟨Ordering.gt, by simp [cmpTokList, cmpTok, h]⟩
      | eq =>
        cases h2 : cmpNat n m with
        | lt => exact ⟨Ordering.lt, by simp [cmpTokList, cmpTok, h, h2]⟩
        | gt => exact ⟨Ordering.gt, by simp [cmpTokList, cmpTok, h, h2]⟩
        | eq =>
          obtain ⟨o, ho⟩ := ih hrest2
          exact ⟨o, by simp [cmpTokList, cmpTok, h, h2, ho]⟩

theorem cmpCharList_refl (l : List Char) : cmpCharList l l = Ordering.eq := by
  induction l with
  | nil => rfl
  | cons c cs ih => simp [cmpCharList, ih]

theorem cmpTok_refl (a : Tok) : cmpTok a a = Except.ok Ordering.eq := by
  cases a with
  | str s => simp [cmpTok, cmpStr, cmpCharList_refl]
  | int n => simp [cmpTok, cmpNat]

/-- C3: whenever the two keys agree on a common token prefix and then
hold integer tokens `m < n` at the same position, the first name
compares strictly below the second, whatever digit strings produced the
integers. -/
theorem natural_key_orders_embedded_ints {s t : String} {p r1 r2 : List Tok} {m n : Nat}
    (hs : natural_sort_key s = p ++ Tok.int m :: r1)
    (ht : natural_sort_key t = p ++ Tok.int n :: r2)
    (hmn : m < n) :
    cmpTokList (natural_sort_key s) (natural_sort_key t) = Except.ok Ordering.lt := by
  rw [hs, ht]
  clear hs ht
  induction p with
  | nil => simp [cmpTokList, cmpTok, cmpNat, hmn]
  | cons a p ih => simpa [cmpTokList, cmpTok_refl] using ih

/-- Witness for C3 at the spec's example: "Track 2" precedes
"Track 10" although "10" is the longer digit string. -/
theorem natural_key_orders_embedded_ints_witness :
    cmpTokList (natural_sort_key "Track 2") (natural_sort_key "Track 10") =
      Except.ok Ordering.lt :=
  @natural_key_orders_embedded_ints "Track 2" "Track 10" [Tok.str "track "]
    [Tok.str ""] [Tok.str ""] 2 10 (by decide) (by decide) (by decide)

/-- Counterexample for C9: at the spec's own example pair "A1" and
"1A" the two keys are compared token by token with matching kinds at
every position, and the comparison returns a defined result instead of
falling back to a cross-type comparison. -/
theorem natural_key_mixed_example_is_defined :
    cmpTokList (natural_sort_key "A1") (natural_sort_key "1A") = Except.ok Ordering.gt := by
  rfl

/-- C9 (amended): comparing the natural-sort keys of any two names
never compares a text token against an integer token: every key
alternates text and integer tokens starting with a text token, so the
runtime's cross-type comparison (`Except.error`, Python `TypeError`) is
never reached. -/
theorem natural_key_compare_never_type_errors (s t : String) :
    cmpTokList (natural_sort_key s) (natural_sort_key t) ≠ Except.error () := by
  obtain ⟨o, h⟩ := cmpTokList_of_alt (altKey_natural_sort_key s) (altKey_natural_sort_key t)
  simp [h]

/-! ### Order theory of the comparator -/

/-- Swap of a comparison outcome, errors untouched. -/
def oswap : Except Unit Ordering → Except Unit Ordering
  | Except.ok o => Except.ok o.swap
  | e => e

theorem cmpNat_swap (a b : Nat) : cmpNat b a = (cmpNat a b).swap := by
  unfold cmpNat
  by_cases h1 : a < b
  · have h2 : ¬ b < a := by omega
    simp [h1, h2, Ordering.swap]
  · by_cases h2 : b < a
    · simp [h1, h2, Ordering.swap]
    · simp [h1, h2, Ordering.swap]

theorem cmpNat_eq {a b : Nat} (h : cmpNat a b = Ordering.eq) : a = b := by
  unfold cmpNat at h
  by_cases h1 : a < b
  · rw [if_pos h1] at h
    simp at h
  · rw [if_neg h1] at h
    by_cases h2 : b < a
    · rw [if_pos h2] at h
      simp at h
    · omega

theorem cmpNat_lt_iff {a b : Nat} : cmpNat a b = Ordering.lt ↔ a < b := by
  unfold cmpNat
  by_cases h1 : a < b
  · simp [h1]
  · by_cases h2 : b < a
    · simp [h1, h2]
    · simp [h1, h2]

theorem cmpCharList_swap (xs : List Char) :
    ∀ ys, cmpCharList ys xs = (cmpCharList xs ys).swap := by
  induction xs with
  | nil => intro ys; cases ys <;> rfl
  | cons x xs ih =>
    intro ys
    cases ys with
    | nil => rfl
    | cons y ys =>
      by_cases h1 : x.toNat < y.toNat
      · have h2 : ¬ y.toNat < x.toNat := by omega
        simp [cmpCharList, h1, h2, Ordering.swap]
      · by_cases h2 : y.toNat < x.toNat
        · simp [cmpCharList, h1, h2, Ordering.swap]
        · simp [cmpCharList, h1, h2, Ordering.swap, ih ys]

theorem cmpCharList_eq : ∀ {xs ys : List Char}, cmpCharList xs ys = Ordering.eq → xs = ys := by
  intro xs
  induction xs with
  | nil =>
    intro ys h
    cases ys with
    | nil => rfl
    | cons y ys => simp [cmpCharList] at h
  | cons x xs ih =>
    intro ys h
    cases ys with
    | nil => simp [cmpCharList] at h
    | cons y ys =>
      simp only [cmpCharList] at h
      by_cases h1 : x.toNat < y.toNat
      · rw [if_pos h1] at h
        simp at h
      · rw [if_neg h1] at h
        by_cases h2 : y.toNat < x.toNat
        · rw [if_pos h2] at h
          simp at h
        · rw [if_neg h2] at h
          have hnat : x.toNat = y.toNat := by omega
          have hx : x = y := Char.eq_of_val_eq (UInt32.toNat.inj hnat)
          rw [hx, ih h]

theorem cmpCharList_lt_trans :
    ∀ {xs ys zs : List Char}, cmpCharList xs ys = Ordering.lt →
      cmpCharList ys zs = Ordering.lt → cmpCharList xs zs = Ordering.lt := by
  intro xs
  induction xs with
  | nil =>
    intro ys zs h1 h2
    cases ys with
    | nil => simp [cmpCharList] at h1
    | cons y ys =>
      cases zs with
      | nil => simp [cmpCharList] at h2
      | cons z zs => rfl
  | cons x xs ih =>
    intro ys zs h1 h2
    cases ys with
    | nil => simp [cmpCharList] at h1
    | cons y ys =>
      cases zs with
      | nil => simp [cmpCharList] at h2
      | cons z zs =>
        simp only [cmpCharList] at h1 h2 ⊢
        by_cases a1 : x.toNat < y.toNat
        · rw [if_pos a1] at h1
          by_cases b1 : y.toNat < z.toNat
          · rw [if_pos (show x.toNat < z.toNat by omega)]
          · rw [if_neg b1] at h2
            by_cases b2 : z.toNat < y.toNat
            · rw [if_pos b2] at h2
              simp at h2
            · rw [if_neg b2] at h2
              rw [if_pos (show x.toNat < z.toNat by omega)]
        · rw [if_neg a1] at h1
          by_cases a2 : y.toNat < x.toNat
          · rw [if_pos a2] at h1
            simp at h1
          · rw [if_neg a2] at h1
            by_cases b1 : y.toNat < z.toNat
            · rw [if_pos (show x.toNat < z.toNat by omega)]
            · rw [if_neg b1] at h2
              by_cases b2 : z.toNat < y.toNat
              · rw [if_pos b2] at h2
                simp at h2
              · rw [if_neg b2] at h2
                rw [if_neg (show ¬ x.toNat < z.toNat by omega),
                  if_neg (show ¬ z.toNat < x.toNat by omega)]
                exact ih h1 h2

theorem cmpTok_swap (a b : Tok) : cmpTok b a = oswap (cmpTok a b) := by
  cases a with
  | str s =>
    cases b with
    | str t =>
      simp only [cmpTok, oswap, cmpStr]
      exact congrArg Except.ok (cmpCharList_swap _ _)
    | int t => rfl
  | int s =>
    cases b with
    | str t => rfl
    | int t =>
      simp only [cmpTok, oswap]
      exact congrArg Except.ok (cmpNat_swap _ _)

theorem cmpTok_eq : ∀ {a b : Tok}, cmpTok a b = Except.ok Ordering.eq → a = b := by
  intro a b h
  cases a with
  | str s =>
    cases b with
    | str t =>
      simp only [cmpTok, Except.ok.injEq, cmpStr] at h
      exact congrArg Tok.str (String.ext (cmpCharList_eq h))
    | int t => simp [cmpTok] at h
  | int s =>
    cases b with
    | str t => simp [cmpTok] at h
    | int t =>
      simp only [cmpTok, Except.ok.injEq] at h
      exact congrArg Tok.int (cmpNat_eq h)

theorem cmpTok_lt_trans : ∀ {a b c : Tok}, cmpTok a b = Except.ok Ordering.lt →
    cmpTok b c = Except.ok Ordering.lt → cmpTok a c = Except.ok Ordering.lt := by
  intro a b c h1 h2
  cases a with
  | str s =>
    cases b with
    | str t =>
      cases c with
      | str u =>
        simp only [cmpTok, Except.ok.injEq, cmpStr] at h1 h2 ⊢
        exact cmpCharList_lt_trans h1 h2
      | int u => simp [cmpTok] at h2
    | int t => simp [cmpTok] at h1
  | int s =>
    cases b with
    | str t => simp [cmpTok] at h1
    | int t =>
      cases c with
      | str u => simp [cmpTok] at h2
      | int u =>
        simp only [cmpTok, Except.ok.injEq] at h1 h2 ⊢
        rw [cmpNat_lt_iff] at h1 h2 ⊢
        omega

theorem cmpTokList_swap (xs : List Tok) :
    ∀ ys, cmpTokList ys xs = oswap (cmpTokList xs ys) := by
  induction xs with
  | nil => intro ys; cases ys <;> rfl
  | cons x xs ih =>
    intro ys
    cases ys with
    | nil => rfl
    | cons y ys =>
      have h2 := cmpTok_swap x y
      cases h : cmpTok x y with
      | error e =>
        rw [h] at h2
        simp [cmpTokList, h, h2, oswap]
      | ok o =>
        rw [h] at h2
        cases o <;> simp [cmpTokList, h, h2, oswap, Ordering.swap, ih ys]

theorem cmpTokList_eq : ∀ {xs ys : List Tok},
    cmpTokList xs ys = Except.ok Ordering.eq → xs = ys := by
  intro xs
  induction xs with
  | nil =>
    intro ys h
    cases ys with
    | nil => rfl
    | cons y ys => simp [cmpTokList] at h
  | cons x xs ih =>
    intro ys h
    cases ys with
    | nil => simp [cmpTokList] at h
    | cons y ys =>
      cases hh : cmpTok x y with
      | error e => simp [cmpTokList, hh] at h
      | ok o =>
        cases o with
        | lt => simp [cmpTokList, hh] at h
        | gt => simp [cmpTokList, hh] at h
        | eq =>
          simp only [cmpTokList, hh] at h
          rw [cmpTok_eq hh, ih h]

theorem cmpTokList_lt_trans : ∀ {xs ys zs : List Tok},
    cmpTokList xs ys = Except.ok Ordering.lt →
      cmpTokList ys zs = Except.ok Ordering.lt →
        cmpTokList xs zs = Except.ok Ordering.lt := by
  intro xs
  induction xs with
  | nil =>
    intro ys zs h1 h2
    cases ys with
    | nil => simp [cmpTokList] at h1
    | cons y ys =>
      cases zs with
      | nil => simp [cmpTokList] at h2
      | cons z zs => rfl
  | cons x xs ih =>
    intro ys zs h1 h2
    cases ys with
    | nil => simp [cmpTokList] at h1
    | cons y ys =>
      cases zs with
      | nil => simp [cmpTokList] at h2
      | cons z zs =>
        cases hxy : cmpTok x y with
        | error e => simp [cmpTokList, hxy] at h1
        | ok o =>
          cases o with
          | gt => simp [cmpTokList, hxy] at h1
          | lt =>
            cases hyz : cmpTok y z with
            | error e => simp [cmpTokList, hyz] at h2
            | ok o2 =>
              cases o2 with
              | gt => simp [cmpTokList, hyz] at h2
              | lt => simp [cmpTokList, cmpTok_lt_trans hxy hyz]
              | eq =>
                have hy : y = z := cmpTok_eq hyz
                subst hy
                simp [cmpTokList, hxy]
          | eq =>
            have hxy2 : x = y := cmpTok_eq hxy
            subst hxy2
            simp only [cmpTokList, hxy] at h1
            cases hyz : cmpTok x z with
            | error e => simp [cmpTokList, hyz] at h2
            | ok o2 =>
              cases o2 with
              | gt => simp [cmpTokList, hyz] at h2
              | lt => simp [cmpTokList, hyz]
              | eq =>
                simp only [cmpTokList, hyz] at h2 ⊢
                exact ih h1 h2

/-! ### The sort relation is total and transitive; sorted lists are unique -/

theorem natLeB_total (a b : String) : natLeB a b = true ∨ natLeB b a = true := by
  unfold natLeB
  cases h : cmpTokList (natural_sort_key a) (natural_sort_key b) with
  | error e => left; simp [h]
  | ok o =>
    cases o with
    | lt => left; simp [h]
    | eq => left; simp [h]
    | gt =>
      right
      rw [cmpTokList_swap, h]
      simp [oswap, Ordering.swap]

instance : IsTotal String natLeR := ⟨natLeB_total⟩

theorem natLeB_trans {a b c : String} (h1 : natLeB a b = true) (h2 : natLeB b c = true) :
    natLeB a c = true := by
  unfold natLeB at h1 h2 ⊢
  obtain ⟨o1, e1⟩ :=
    cmpTokList_of_alt (altKey_natural_sort_key a) (altKey_natural_sort_key b)
  obtain ⟨o2, e2⟩ :=
    cmpTokList_of_alt (altKey_natural_sort_key b) (altKey_natural_sort_key c)
  rw [e1] at h1
  rw [e2] at h2
  cases o1 with
  | gt => simp at h1
  | eq =>
    have kab := cmpTokList_eq e1
    rw [kab]
    cases o2 with
    | gt => simp at h2
    | lt => simp [e2]
    | eq => simp [e2]
  | lt =>
    cases o2 with
    | gt => simp at h2
    | eq =>
      have kbc := cmpTokList_eq e2
      rw [← kbc, e1]
    | lt => rw [cmpTokList_lt_trans e1 e2]

instance : IsTrans String natLeR := ⟨fun _ _ _ => natLeB_trans⟩

/-- Strict natural order on names: the keys compare strictly below. -/
def natLtR : String → String → Prop := fun a b =>
  cmpTokList (natural_sort_key a) (natural_sort_key b) = Except.ok Ordering.lt

theorem natLtR_asymm {a b : String} (h1 : natLtR a b) (h2 : natLtR b a) : False := by
  unfold natLtR at h1 h2
  rw [cmpTokList_swap, h1] at h2
  simp [oswap, Ordering.swap] at h2

theorem natLtR_of_le_of_ne {a b : String} (hle : natLeR a b)
    (hne : natural_sort_key a ≠ natural_sort_key b) : natLtR a b := by
  unfold natLeR natLeB at hle
  unfold natLtR
  obtain ⟨o, e⟩ :=
    cmpTokList_of_alt (altKey_natural_sort_key a) (altKey_natural_sort_key b)
  rw [e] at hle ⊢
  cases o with
  | lt => rfl
  | gt => simp at hle
  | eq => exact absurd (cmpTokList_eq e) hne

/-- Uniqueness of lists pairwise ordered by an asymmetric relation: a
permutation between two such lists forces equality. -/
theorem eq_of_perm_of_pairwise {α : Type} {R : α → α → Prop}
    (hasym : ∀ a b, R a b → R b a → False) :
    ∀ l1 l2 : List α, l1.Perm l2 → l1.Pairwise R → l2.Pairwise R → l1 = l2 := by
  intro l1
  induction l1 with
  | nil =>
    intro l2 hp _ _
    exact (hp.symm.eq_nil).symm
  | cons a t1 ih =>
    intro l2 hp hp1 hp2
    cases l2 with
    | nil => exact absurd hp.eq_nil (by simp)
    | cons b t2 =>
      by_cases hab : a = b
      · subst hab
        have htail := hp.cons_inv
        rw [ih t2 htail (List.pairwise_cons.mp hp1).2 (List.pairwise_cons.mp hp2).2]
      · exfalso
        have ha2 : a ∈ b :: t2 := hp.subset (List.mem_cons_self a t1)
        have ha3 : a ∈ t2 := by
          cases List.mem_cons.mp ha2 with
          | inl h => exact absurd h hab
          | inr h => exact h
        have hRba : R b a := (List.pairwise_cons.mp hp2).1 a ha3
        have hb2 : b ∈ a :: t1 := hp.symm.subset (List.mem_cons_self b t2)
        have hb3 : b ∈ t1 := by
          cases List.mem_cons.mp hb2 with
          | inl h => exact absurd h.symm hab
          | inr h => exact h
        have hRab : R a b := (List.pairwise_cons.mp hp1).1 b hb3
        exact hasym a b hRab hRba

theorem sortNames_perm (l : List String) : (sortNames l).Perm l :=
  List.perm_insertionSort natLeR l

theorem sortNames_sorted (l : List String) : List.Sorted natLeR (sortNames l) :=
  List.sorted_insertionSort natLeR l

/-- Equal names have equal comparison outcome `eq`. -/
theorem cmpTokList_refl (xs : List Tok) : cmpTokList xs xs = Except.ok Ordering.eq := by
  induction xs with
  | nil => rfl
  | cons x xs ih => simp [cmpTokList, cmpTok_refl, ih]

theorem natLtR_key_ne {a b : String} (h : natLtR a b) :
    natural_sort_key a ≠ natural_sort_key b := by
  intro hk
  unfold natLtR at h
  rw [hk, cmpTokList_refl] at h
  simp at h

/-- Characterisation of the sort on strictly increasing targets: if a
list is pairwise strictly ordered, every permutation of it sorts back
to exactly it. -/
theorem sortNames_eq_of_pairwise {l canon : List String}
    (hperm : l.Perm canon) (hc : canon.Pairwise natLtR) : sortNames l = canon := by
  have hboth : ∀ a ∈ canon, ∀ b ∈ canon, a ≠ b → natLtR a b ∨ natLtR b a := by
    have h2 : canon.Pairwise (fun a b => natLtR a b ∨ natLtR b a) :=
      hc.imp (fun h => Or.inl h)
    intro a ha b hb hne
    exact List.Pairwise.forall (fun x y h => h.symm) h2 ha hb hne
  have hmem : ∀ a ∈ sortNames l, a ∈ canon := fun a ha =>
    hperm.subset ((sortNames_perm l).subset ha)
  have hnodup : canon.Nodup := by
    rw [List.nodup_iff_sublist]
    intro a hsub
    have := List.Pairwise.sublist hsub hc
    rcases List.pairwise_cons.mp this with ⟨h1, _⟩
    exact natLtR_asymm (h1 a (List.mem_singleton.mpr rfl)) (h1 a (List.mem_singleton.mpr rfl))
  have hnodup2 : (sortNames l).Nodup := (((sortNames_perm l).trans hperm).nodup_iff).mpr hnodup
  have hsorted : (sortNames l).Pairwise natLtR := by
    rw [List.pairwise_iff_getElem]
    intro i j hi hj hij
    have hle : natLeR ((sortNames l)[i]) ((sortNames l)[j]) :=
      (List.pairwise_iff_getElem.mp (sortNames_sorted l)) i j hi hj hij
    have hne : (sortNames l)[i] ≠ (sortNames l)[j] := by
      intro hcontra
      have := List.Nodup.getElem_inj_iff hnodup2 |>.mp hcontra
      omega
    have hA : (sortNames l)[i] ∈ canon := hmem _ (List.getElem_mem hi)
    have hB : (sortNames l)[j] ∈ canon := hmem _ (List.getElem_mem hj)
    cases hboth _ hA _ hB hne with
    | inl h => exact h
    | inr h =>
      exact natLtR_of_le_of_ne hle (fun hk => natLtR_key_ne h hk.symm)
  exact eq_of_perm_of_pairwise (fun a b => natLtR_asymm)
    (sortNames l) canon ((sortNames_perm l).trans hperm) hsorted hc

/-! ### Decimal rendering: round trip, injectivity, character shape -/

/-- Value of a most-significant-first digit string. -/
def parseNat (cs : List Char) : Nat :=
  cs.foldl (fun acc c => 10 * acc + digitVal c) 0

theorem foldl_digits_append (v : Nat) (xs ys : List Char) :
    (xs ++ ys).foldl (fun acc c => 10 * acc + digitVal c) v =
      ys.foldl (fun acc c => 10 * acc + digitVal c)
        (xs.foldl (fun acc c => 10 * acc + digitVal c) v) := by
  rw [List.foldl_append]

theorem digitVal_digitChar {d : Nat} (hd : d < 10) : digitVal (Nat.digitChar d) = d := by
  interval_cases d <;> decide

theorem decGo_parse : ∀ fuel n, n ≤ fuel →
    parseNat (decGo fuel n) = n := by
  intro fuel
  induction fuel with
  | zero =>
    intro n hn
    have : n = 0 := Nat.le_zero.mp hn
    simp [this, decGo, parseNat]
  | succ fuel ih =>
    intro n hn
    by_cases h0 : n = 0
    · simp [h0, decGo, parseNat]
    · have hdiv : n / 10 ≤ fuel := by
        have hlt : n / 10 < n := Nat.div_lt_self (Nat.pos_of_ne_zero h0) (by decide)
        omega
      have hrec := ih (n / 10) hdiv
      unfold parseNat at hrec ⊢
      simp only [decGo, h0, if_false, foldl_digits_append]
      rw [hrec]
      simp only [List.foldl_cons, List.foldl_nil]
      rw [digitVal_digitChar (Nat.mod_lt n (by omega))]
      omega

theorem parse_decimalChars (n : Nat) : parseNat (decimalChars n) = n := by
  by_cases h0 : n = 0
  · simp [h0, decimalChars, parseNat, digitVal]
  · simp only [decimalChars, h0, if_false]
    exact decGo_parse (n + 1) n (by omega)

theorem parse_replicate_zeros (k : Nat) (ds : List Char) :
    parseNat (List.replicate k '0' ++ ds) = parseNat ds := by
  unfold parseNat
  rw [List.foldl_append]
  have : (List.replicate k '0').foldl (fun acc c => 10 * acc + digitVal c) 0 = 0 := by
    induction k with
    | zero => rfl
    | succ k ih => simpa [List.replicate_succ, digitVal] using ih
  rw [this]

theorem parse_pyPad (w n : Nat) : parseNat (pyPad w n).data = n := by
  show parseNat (List.replicate _ '0' ++ decimalChars n) = n
  rw [parse_replicate_zeros, parse_decimalChars]

theorem pyPad_inj {w a b : Nat} (h : pyPad w a = pyPad w b) : a = b := by
  have := congrArg (fun s => parseNat s.data) h
  simpa [parse_pyPad] using this

theorem decGo_chars : ∀ fuel n c, c ∈ decGo fuel n → ∃ d, d < 10 ∧ c = Nat.digitChar d := by
  intro fuel
  induction fuel with
  | zero => intro n c hc; simp [decGo] at hc
  | succ fuel ih =>
    intro n c hc
    by_cases h0 : n = 0
    · simp [decGo, h0] at hc
    · simp only [decGo, h0, if_false, List.mem_append, List.mem_singleton] at hc
      cases hc with
      | inl h => exact ih _ _ h
      | inr h => exact ⟨n % 10, Nat.mod_lt n (by omega), h⟩

theorem decimalChars_chars {n : Nat} {c : Char} (hc : c ∈ decimalChars n) :
    ∃ d, d < 10 ∧ c = Nat.digitChar d := by
  by_cases h0 : n = 0
  · simp [decimalChars, h0] at hc
    exact ⟨0, by omega, by rw [hc]; rfl⟩
  · simp only [decimalChars, h0, if_false] at hc
    exact decGo_chars _ _ _ hc

theorem pyPad_chars {w n : Nat} {c : Char} (hc : c ∈ (pyPad w n).data) :
    ∃ d, d < 10 ∧ c = Nat.digitChar d := by
  have hc2 : c ∈ List.replicate (w - (decimalChars n).length) '0' ++ decimalChars n := hc
  rw [List.mem_append] at hc2
  cases hc2 with
  | inl h =>
    have := List.eq_of_mem_replicate h
    exact ⟨0, by omega, by rw [this]; rfl⟩
  | inr h => exact decimalChars_chars h

theorem decimalChars_ne_nil (n : Nat) : decimalChars n ≠ [] := by
  by_cases h0 : n = 0
  · simp [decimalChars, h0]
  · simp only [decimalChars, h0, if_false]
    cases hf : decGo (n + 1) n with
    | cons c cs => simp
    | nil =>
      exfalso
      have := decGo_parse (n + 1) n (by omega)
      rw [hf] at this
      simp [parseNat] at this
      omega

theorem pyPad_data_ne_nil (w n : Nat) : (pyPad w n).data ≠ [] := by
  show List.replicate _ '0' ++ decimalChars n ≠ []
  simp [decimalChars_ne_nil]

/-- Digit characters survive lowercasing; hence the generated names
are untouched by `text.lower()`. -/
theorem digitChar_toLower {d : Nat} (hd : d < 10) :
    (Nat.digitChar d).toLower = Nat.digitChar d := by
  interval_cases d <;> decide

theorem digitChar_isDigit {d : Nat} (hd : d < 10) :
    (Nat.digitChar d).isDigit = true := by
  interval_cases d <;> decide

theorem map_id_of_mem {α : Type} {f : α → α} :
    ∀ {l : List α}, (∀ c ∈ l, f c = c) → l.map f = l := by
  intro l
  induction l with
  | nil => intro _; rfl
  | cons x xs ih =>
    intro h
    simp only [List.map_cons]
    rw [h x (List.mem_cons_self x xs), ih (fun c hc => h c (List.mem_cons_of_mem x hc))]

theorem lowerStr_pyPad (w n : Nat) : (lowerStr (pyPad w n)).data = (pyPad w n).data := by
  show ((pyPad w n).data.map Char.toLower) = (pyPad w n).data
  apply map_id_of_mem
  intro c hc
  obtain ⟨d, hd, rfl⟩ := pyPad_chars hc
  exact digitChar_toLower hd

/-! ### Keys and properties of the generated names -/

theorem tokGo_inr_digits :
    ∀ (ds : List Char), (∀ c ∈ ds, c.isDigit = true) → ∀ (v : Nat) (cs : List Char),
      tokGo (Sum.inr v) (ds ++ cs) =
        tokGo (Sum.inr (ds.foldl (fun acc c => 10 * acc + digitVal c) v)) cs := by
  intro ds
  induction ds with
  | nil => intro _ v cs; rfl
  | cons d ds ih =>
    intro hd v cs
    have hdd : d.isDigit = true := hd d (List.mem_cons_self d ds)
    simp only [List.cons_append, tokGo, hdd, if_true, List.foldl_cons]
    exact ih (fun c hc => hd c (List.mem_cons_of_mem d hc)) _ cs

theorem pyPad_digits {w n : Nat} : ∀ c ∈ (pyPad w n).data, c.isDigit = true := by
  intro c hc
  obtain ⟨d, hd, rfl⟩ := pyPad_chars hc
  exact digitChar_isDigit hd

theorem key_pyPad (w k : Nat) :
    natural_sort_key (pyPad w k) = [Tok.str "", Tok.int k, Tok.str ""] := by
  unfold natural_sort_key
  rw [lowerStr_pyPad]
  cases hdata : (pyPad w k).data with
  | nil => exact absurd hdata (pyPad_data_ne_nil w k)
  | cons d rest =>
    have hall : ∀ c ∈ d :: rest, c.isDigit = true := by
      rw [← hdata]
      exact pyPad_digits
    have hd : d.isDigit = true := hall d (List.mem_cons_self d rest)
    have hrest : ∀ c ∈ rest, c.isDigit = true :=
      fun c hc => hall c (List.mem_cons_of_mem d hc)
    simp only [tokGo, hd, if_true]
    have := tokGo_inr_digits rest hrest (digitVal d) []
    rw [List.append_nil] at this
    rw [this]
    have hval : rest.foldl (fun acc c => 10 * acc + digitVal c) (digitVal d) = k := by
      have hp := parse_pyPad w k
      rw [hdata] at hp
      unfold parseNat at hp
      simpa using hp
    rw [hval]
    rfl

theorem key_mkFolderName (i : Nat) :
    natural_sort_key (mkFolderName i) = [Tok.str "", Tok.int (i + 1), Tok.str ""] :=
  key_pyPad 2 (i + 1)

theorem map_toLower_pyPad (w n : Nat) :
    (pyPad w n).data.map Char.toLower = (pyPad w n).data :=
  lowerStr_pyPad w n

theorem key_mkFileName (i : Nat) :
    natural_sort_key (mkFileName i) =
      [Tok.str "", Tok.int (i + 1), Tok.str ".mp", Tok.int 3, Tok.str ""] := by
  unfold natural_sort_key mkFileName
  have hdata2 : (lowerStr (pyPad 3 (i + 1) ++ ".mp3")).data =
      (pyPad 3 (i + 1)).data ++ ['.', 'm', 'p', '3'] := by
    show ((pyPad 3 (i + 1) ++ ".mp3").data.map Char.toLower) = _
    rw [String.data_append, List.map_append, map_toLower_pyPad 3 (i + 1)]
    rfl
  rw [hdata2]
  cases hdata : (pyPad 3 (i + 1)).data with
  | nil => exact absurd hdata (pyPad_data_ne_nil 3 (i + 1))
  | cons d rest =>
    have hall : ∀ c ∈ d :: rest, c.isDigit = true := by
      rw [← hdata]
      exact pyPad_digits
    have hd : d.isDigit = true := hall d (List.mem_cons_self d rest)
    have hrest : ∀ c ∈ rest, c.isDigit = true :=
      fun c hc => hall c (List.mem_cons_of_mem d hc)
    simp only [List.cons_append, tokGo, hd, if_true, List.append_eq]
    rw [tokGo_inr_digits rest hrest (digitVal d) ['.', 'm', 'p', '3']]
    have hval : rest.foldl (fun acc c => 10 * acc + digitVal c) (digitVal d) = i + 1 := by
      have hp := parse_pyPad 3 (i + 1)
      rw [hdata] at hp
      unfold parseNat at hp
      simpa using hp
    rw [hval]
    rfl

/-- Canonical folder-name sequence "01", "02", …. -/
def canonFolderNames (N : Nat) : List String := (List.range N).map mkFolderName

/-- Canonical file-name sequence "001.mp3", "002.mp3", …. -/
def canonFileNames (M : Nat) : List String := (List.range M).map mkFileName

theorem natLtR_mkFolderName {i j : Nat} (h : i < j) :
    natLtR (mkFolderName i) (mkFolderName j) := by
  unfold natLtR
  rw [key_mkFolderName, key_mkFolderName]
  have hc : cmpNat (i + 1) (j + 1) = Ordering.lt := cmpNat_lt_iff.mpr (by omega)
  simp [cmpTokList, cmpTok, cmpStr, cmpCharList, hc]

theorem natLtR_mkFileName {i j : Nat} (h : i < j) :
    natLtR (mkFileName i) (mkFileName j) := by
  unfold natLtR
  rw [key_mkFileName, key_mkFileName]
  have hc : cmpNat (i + 1) (j + 1) = Ordering.lt := cmpNat_lt_iff.mpr (by omega)
  simp [cmpTokList, cmpTok, cmpStr, cmpCharList, hc]

theorem canonFolderNames_pairwise (N : Nat) : (canonFolderNames N).Pairwise natLtR := by
  unfold canonFolderNames
  rw [List.pairwise_map]
  have := List.pairwise_lt_range N
  exact this.imp (fun h => natLtR_mkFolderName h)

theorem canonFileNames_pairwise (M : Nat) : (canonFileNames M).Pairwise natLtR := by
  unfold canonFileNames
  rw [List.pairwise_map]
  have := List.pairwise_lt_range M
  exact this.imp (fun h => natLtR_mkFileName h)

theorem nodup_of_pairwise_natLtR {l : List String} (h : l.Pairwise natLtR) : l.Nodup := by
  refine h.imp ?_
  intro a b hab
  intro hcontra
  rw [hcontra] at hab
  exact natLtR_asymm hab hab

theorem mkFolderName_inj {a b : Nat} (h : mkFolderName a = mkFolderName b) : a = b := by
  have := pyPad_inj h
  omega

theorem mkFileName_inj {a b : Nat} (h : mkFileName a = mkFileName b) : a = b := by
  have hk := congrArg natural_sort_key h
  rw [key_mkFileName, key_mkFileName] at hk
  have := List.head_eq_of_cons_eq (List.tail_eq_of_cons_eq hk)
  injection this with h2
  omega

theorem isMp3_mkFileName (i : Nat) : isMp3 (mkFileName i) = true := by
  unfold isMp3
  apply (List.isSuffixOf_iff_suffix).mpr
  refine ⟨(pyPad 3 (i + 1)).data, ?_⟩
  show _ = (lowerStr (pyPad 3 (i + 1) ++ ".mp3")).data
  have : (lowerStr (pyPad 3 (i + 1) ++ ".mp3")).data =
      (pyPad 3 (i + 1)).data ++ ['.', 'm', 'p', '3'] := by
    show ((pyPad 3 (i + 1) ++ ".mp3").data.map Char.toLower) = _
    rw [String.data_append, List.map_append, map_toLower_pyPad 3 (i + 1)]
    rfl
  rw [this]

theorem startsTemp_cons_digit {c : Char} (l : List Char) (hc : c.isDigit = true) :
    List.isPrefixOf TEMP_MARKER.data (c :: l) = false := by
  have hne : ('_' == c) = false := by
    rw [beq_eq_false_iff_ne]
    intro h
    rw [← h] at hc
    exact absurd hc (by decide)
  have hm : TEMP_MARKER.data = '_' :: "_dftemp_".data := rfl
  rw [hm]
  simp [List.isPrefixOf, hne]

theorem startsTemp_pyPad (w n : Nat) : startsTemp (pyPad w n) = false := by
  unfold startsTemp
  cases hdata : (pyPad w n).data with
  | nil => exact absurd hdata (pyPad_data_ne_nil w n)
  | cons c l =>
    have hc : c.isDigit = true := by
      apply pyPad_digits
      rw [hdata]
      exact List.mem_cons_self c l
    exact startsTemp_cons_digit l hc

theorem startsTemp_mkFolderName (i : Nat) : startsTemp (mkFolderName i) = false :=
  startsTemp_pyPad 2 (i + 1)

theorem startsTemp_mkFileName (i : Nat) : startsTemp (mkFileName i) = false := by
  unfold startsTemp mkFileName
  rw [String.data_append]
  cases hdata : (pyPad 3 (i + 1)).data with
  | nil => exact absurd hdata (pyPad_data_ne_nil 3 (i + 1))
  | cons c l =>
    have hc : c.isDigit = true := by
      apply pyPad_digits
      rw [hdata]
      exact List.mem_cons_self c l
    rw [List.cons_append]
    exact startsTemp_cons_digit _ hc

theorem startsTemp_marker_append (s : String) : startsTemp (TEMP_MARKER ++ s) = true := by
  unfold startsTemp
  rw [String.data_append]
  exact (List.isPrefixOf_iff_prefix).mpr (List.prefix_append _ _)

theorem marker_append_inj {a b : String} (h : TEMP_MARKER ++ a = TEMP_MARKER ++ b) :
    a = b := by
  have hd := congrArg String.data h
  rw [String.data_append, String.data_append] at hd
  exact String.ext (List.append_cancel_left hd)

/-! ### The sequential renamer: success and per-entry effect -/

theorem osRename_ok_of_fresh {A : Type} (getN : A → String) (setN : String → A → A)
    {src dst : String} {st : List A}
    (hs : src ∈ st.map getN) (hd : dst ∉ st.map getN) :
    osRename getN setN src dst st =
      Except.ok (st.map (fun e => if getN e = src then setN dst e else e)) := by
  have hne : src ≠ dst := fun h => hd (h ▸ hs)
  unfold osRename
  rw [if_pos hs, if_neg hne, if_neg hd]

theorem names_after_rename {A : Type} (getN : A → String) (setN : String → A → A)
    (hgs : ∀ n e, getN (setN n e) = n) (src dst : String) (st : List A) :
    (st.map (fun e => if getN e = src then setN dst e else e)).map getN =
      (st.map getN).map (fun n => if n = src then dst else n) := by
  rw [List.map_map, List.map_map]
  apply List.map_congr_left
  intro e _
  by_cases h : getN e = src <;> simp [h, hgs]

theorem phase2_ok {A : Type} (getN : A → String) (setN : String → A → A)
    (hgs : ∀ n e, getN (setN n e) = n) :
    ∀ (pairs : List (String × String)) (st : List A),
      (st.map getN).Nodup →
      (pairs.map Prod.fst).Nodup →
      (∀ p ∈ pairs, p.1 ∈ st.map getN) →
      (pairs.map Prod.snd).Nodup →
      (∀ p ∈ pairs, p.2 ∉ st.map getN) →
      ∃ st2, phase2 getN setN pairs st = Except.ok st2 ∧
        st2.length = st.length ∧
        (st2.map getN).Nodup ∧
        ∀ k (hk : k < st.length) (hk2 : k < st2.length),
          (∀ i (hi : i < pairs.length), getN st[k] = (pairs[i]).1 →
              st2[k] = setN (pairs[i]).2 st[k]) ∧
          (getN st[k] ∉ pairs.map Prod.fst → st2[k] = st[k]) := by
  intro pairs
  induction pairs with
  | nil =>
    intro st hnd _ _ _ _
    refine ⟨st, rfl, rfl, hnd, ?_⟩
    intro k hk hk2
    constructor
    · intro i hi
      exact absurd hi (by simp)
    · intro _
      rfl
  | cons p rest ih =>
    intro st hnd hfst hmem hsnd hfresh
    obtain ⟨s, d⟩ := p
    have hs : s ∈ st.map getN := hmem (s, d) (List.mem_cons_self _ _)
    have hd : d ∉ st.map getN := hfresh (s, d) (List.mem_cons_self _ _)
    set st1 : List A := st.map (fun e => if getN e = s then setN d e else e) with hst1
    have hnames1 : st1.map getN = (st.map getN).map (fun n => if n = s then d else n) :=
      names_after_rename getN setN hgs s d st
    have hnd1 : (st1.map getN).Nodup := by
      rw [hnames1]
      apply List.Nodup.map_on ?_ hnd
      intro x hx y hy hxy
      by_cases hxs : x = s
      · by_cases hys : y = s
        · rw [hxs, hys]
        · rw [if_pos hxs, if_neg hys] at hxy
          exact absurd (hxy ▸ hy) hd
      · by_cases hys : y = s
        · rw [if_neg hxs, if_pos hys] at hxy
          exact absurd (hxy ▸ hx) hd
        · rw [if_neg hxs, if_neg hys] at hxy
          exact hxy
    have hfst1 : (rest.map Prod.fst).Nodup := (List.nodup_cons.mp hfst).2
    have hsnotin : s ∉ rest.map Prod.fst := by
      have := (List.nodup_cons.mp hfst).1
      simpa using this
    have hdnotin : d ∉ rest.map Prod.snd := by
      have := (List.nodup_cons.mp hsnd).1
      simpa using this
    have hmem1 : ∀ q ∈ rest, q.1 ∈ st1.map getN := by
      intro q hq
      rw [hnames1]
      have hq1 : q.1 ∈ st.map getN := hmem q (List.mem_cons_of_mem _ hq)
      have hqs : q.1 ≠ s := by
        intro hcontra
        exact hsnotin (hcontra ▸ List.mem_map_of_mem Prod.fst hq)
      exact List.mem_map.mpr ⟨q.1, hq1, by simp [hqs]⟩
    have hfresh1 : ∀ q ∈ rest, q.2 ∉ st1.map getN := by
      intro q hq hcontra
      rw [hnames1] at hcontra
      obtain ⟨x, hx, hxq⟩ := List.mem_map.mp hcontra
      by_cases hxs : x = s
      · rw [if_pos hxs] at hxq
        exact hdnotin (hxq ▸ List.mem_map_of_mem Prod.snd hq)
      · rw [if_neg hxs] at hxq
        exact hfresh q (List.mem_cons_of_mem _ hq) (hxq ▸ hx)
    obtain ⟨st2, hrun, hlen, hnd2, hchar⟩ :=
      ih st1 hnd1 hfst1 hmem1 (List.nodup_cons.mp hsnd).2 hfresh1
    have hlen1 : st1.length = st.length := by
      rw [hst1, List.length_map]
    refine ⟨st2, ?_, by omega, hnd2, ?_⟩
    · show phase2 getN setN ((s, d) :: rest) st = Except.ok st2
      simp only [phase2, osRename_ok_of_fresh getN setN hs hd, ← hst1]
      exact hrun
    · intro k hk hk2
      have hk1 : k < st1.length := by omega
      have hget1 : st1[k] = if getN st[k] = s then setN d st[k] else st[k] := by
        simp only [hst1]
        exact List.getElem_map _
      by_cases hks : getN st[k] = s
      · have hget1s : st1[k] = setN d st[k] := by rw [hget1, if_pos hks]
        have hgn1 : getN st1[k] = d := by rw [hget1s, hgs]
        have hdrest : getN st1[k] ∉ rest.map Prod.fst := by
          rw [hgn1]
          intro hcontra
          obtain ⟨q, hq, hqd⟩ := List.mem_map.mp hcontra
          exact hd (hqd ▸ hmem q (List.mem_cons_of_mem _ hq))
        have hunch := ((hchar k hk1 hk2).2 hdrest)
        constructor
        · intro i hi hik
          cases i with
          | zero =>
            simp only [List.getElem_cons_zero]
            rw [hunch, hget1s]
          | succ j =>
            exfalso
            have hj : j < rest.length := by simpa using hi
            have : (rest[j]).1 ∈ rest.map Prod.fst := by
              apply List.mem_map_of_mem
              exact List.getElem_mem hj
            rw [List.getElem_cons_succ] at hik
            rw [hks] at hik
            exact hsnotin (hik ▸ this)
        · intro hnotin
          exfalso
          apply hnotin
          rw [hks]
          exact List.mem_cons_self _ _
      · have hget1n : st1[k] = st[k] := by rw [hget1, if_neg hks]
        constructor
        · intro i hi hik
          cases i with
          | zero =>
            exfalso
            exact hks (by simpa using hik)
          | succ j =>
            have hj : j < rest.length := by simpa using hi
            have := (hchar k hk1 hk2).1 j hj (by rw [hget1n]; simpa using hik)
            rw [hget1n] at this
            simpa using this
        · intro hnotin
          have hnotin1 : getN st1[k] ∉ rest.map Prod.fst := by
            rw [hget1n]
            intro hcontra
            exact hnotin (List.mem_map.mpr (by
              obtain ⟨q, hq, hqe⟩ := List.mem_map.mp hcontra
              exact ⟨q, List.mem_cons_of_mem _ hq, hqe⟩))
          rw [(hchar k hk1 hk2).2 hnotin1, hget1n]

/-! ### Relating phase 1 to the sequential renamer -/

theorem zipWith_pair_fst (f : Nat → String) :
    ∀ (xs : List String) (ys : List Nat), xs.length = ys.length →
      (xs.zipWith (fun o j => (o, f j)) ys).map Prod.fst = xs := by
  intro xs
  induction xs with
  | nil => intro ys _; rfl
  | cons x xs ih =>
    intro ys hl
    cases ys with
    | nil => cases hl
    | cons y ys =>
      simp only [List.zipWith_cons_cons, List.map_cons]
      rw [ih ys (by simpa using hl)]

theorem zipWith_pair_snd (f : Nat → String) :
    ∀ (xs : List String) (ys : List Nat), xs.length = ys.length →
      (xs.zipWith (fun o j => (o, f j)) ys).map Prod.snd = ys.map f := by
  intro xs
  induction xs with
  | nil =>
    intro ys hl
    cases ys with
    | nil => rfl
    | cons y ys => cases hl
  | cons x xs ih =>
    intro ys hl
    cases ys with
    | nil => cases hl
    | cons y ys =>
      simp only [List.zipWith_cons_cons, List.map_cons]
      rw [ih ys (by simpa using hl)]

theorem zip_map_pair (f g : Nat → String) :
    ∀ (ys : List Nat), (ys.map f).zip (ys.map g) = ys.map (fun j => (f j, g j)) := by
  intro ys
  induction ys with
  | nil => rfl
  | cons y ys ih =>
    simp only [List.map_cons, List.zip_cons_cons, ih]

theorem phase1_eq_phase2 {A : Type} (getN : A → String) (setN : String → A → A)
    (mk : Nat → String) :
    ∀ (items : List String) (i : Nat) (st : List A),
      phase1 getN setN mk items i st =
        match phase2 getN setN
            (items.zipWith (fun o j => (o, TEMP_MARKER ++ mk j)) (List.range' i items.length)) st with
        | Except.error e => Except.error e
        | Except.ok st1 =>
          Except.ok (st1, (List.range' i items.length).map (fun j => TEMP_MARKER ++ mk j),
            items.zipWith (fun o j => (o, mk j)) (List.range' i items.length)) := by
  intro items
  induction items with
  | nil => intro i st; rfl
  | cons old rest ih =>
    intro i st
    simp only [List.length_cons, List.range'_succ, List.zipWith_cons_cons, List.map_cons]
    cases hr : osRename getN setN old (TEMP_MARKER ++ mk i) st with
    | error e => simp only [phase1, phase2, hr]
    | ok st1 =>
      simp only [phase1, phase2, hr]
      rw [ih (i + 1) st1]
      cases hp : phase2 getN setN
          (rest.zipWith (fun o j => (o, TEMP_MARKER ++ mk j)) (List.range' (i + 1) rest.length)) st1 with
      | error e => rfl
      | ok st2 => rfl

/-! ### Success of the two-phase rename under clean names -/

theorem rename_two_phase_ok {A : Type} (getN : A → String) (setN : String → A → A)
    (hgs : ∀ n e, getN (setN n e) = n)
    (hss : ∀ m n e, setN m (setN n e) = setN m e)
    (items : List String) (mk : Nat → String) (st : List A)
    (hstnd : (st.map getN).Nodup)
    (hind : items.Nodup)
    (hsub : ∀ o ∈ items, o ∈ st.map getN)
    (hclean : ∀ x ∈ st.map getN, startsTemp x = false)
    (hmkinj : ∀ i j, i < items.length → j < items.length → mk i = mk j → i = j)
    (hmkclean : ∀ i, i < items.length → startsTemp (mk i) = false)
    (hmkfresh : ∀ i, i < items.length → mk i ∉ st.map getN ∨ mk i ∈ items) :
    ∃ st2, rename_two_phase getN setN items mk st =
        Except.ok (st2, items.zipWith (fun o j => (o, mk j)) (List.range' 0 items.length)) ∧
      st2.length = st.length ∧
      (st2.map getN).Nodup ∧
      ∀ k (hk : k < st.length) (hk2 : k < st2.length),
        (∀ j (hj : j < items.length), getN st[k] = items[j] →
          st2[k] = setN (mk j) st[k]) ∧
        (getN st[k] ∉ items → st2[k] = st[k]) := by
  have hlenr : items.length = (List.range' 0 items.length).length := by
    rw [List.length_range']
  have hfst_eq :
      ((items.zipWith (fun o j => (o, TEMP_MARKER ++ mk j)) (List.range' 0 items.length)).map
        Prod.fst) = items := zipWith_pair_fst _ items _ hlenr
  have hsnd_eq :
      ((items.zipWith (fun o j => (o, TEMP_MARKER ++ mk j)) (List.range' 0 items.length)).map
        Prod.snd) = (List.range' 0 items.length).map (fun j => TEMP_MARKER ++ mk j) :=
    zipWith_pair_snd _ items _ hlenr
  have hrange_mem : ∀ j ∈ List.range' 0 items.length, j < items.length := by
    intro j hj
    rw [List.mem_range'] at hj
    obtain ⟨i, hi, rfl⟩ := hj
    omega
  have hP1len :
      (items.zipWith (fun o j => (o, TEMP_MARKER ++ mk j)) (List.range' 0 items.length)).length =
        items.length := by
    rw [List.length_zipWith, List.length_range']
    omega
  have hP1get : ∀ j (hj : j < items.length)
      (hjz : j < (items.zipWith (fun o j => (o, TEMP_MARKER ++ mk j))
        (List.range' 0 items.length)).length),
      (items.zipWith (fun o j => (o, TEMP_MARKER ++ mk j)) (List.range' 0 items.length))[j] =
        (items[j], TEMP_MARKER ++ mk j) := by
    intro j hj hjz
    rw [List.getElem_zipWith, List.getElem_range']
    norm_num
  have htmps_nodup :
      ((List.range' 0 items.length).map (fun j => TEMP_MARKER ++ mk j)).Nodup := by
    apply List.Nodup.map_on ?_ (List.nodup_range' _ _)
    intro x hx y hy hxy
    exact hmkinj x y (hrange_mem x hx) (hrange_mem y hy) (marker_append_inj hxy)
  have htmps_fresh : ∀ j, startsTemp (TEMP_MARKER ++ mk j) = true :=
    fun j => startsTemp_marker_append (mk j)
  obtain ⟨st1, hrun1, hlen1, hnd1, hchar1⟩ :=
    phase2_ok getN setN hgs
      (items.zipWith (fun o j => (o, TEMP_MARKER ++ mk j)) (List.range' 0 items.length)) st
      hstnd (by rw [hfst_eq]; exact hind)
      (by
        intro p hp
        apply hsub
        rw [← hfst_eq]
        exact List.mem_map_of_mem Prod.fst hp)
      (by rw [hsnd_eq]; exact htmps_nodup)
      (by
        intro p hp hcontra
        have hp2 : p.2 ∈ (List.range' 0 items.length).map (fun j => TEMP_MARKER ++ mk j) := by
          rw [← hsnd_eq]
          exact List.mem_map_of_mem Prod.snd hp
        obtain ⟨j, hj, hje⟩ := List.mem_map.mp hp2
        have := hclean p.2 hcontra
        rw [← hje] at this
        rw [htmps_fresh j] at this
        cases this)
  -- names present after phase 1
  have htmpsmem : ∀ j, j < items.length → TEMP_MARKER ++ mk j ∈ st1.map getN := by
    intro j hj
    have hjmem : items[j] ∈ st.map getN := hsub _ (List.getElem_mem hj)
    obtain ⟨k, hk, hke⟩ := List.mem_iff_getElem.mp hjmem
    rw [List.getElem_map] at hke
    have hk2 : k < st.length := by simpa using hk
    have hk3 : k < st1.length := by omega
    have := (hchar1 k hk2 hk3).1 j (by omega) (by rw [hP1get j hj (by omega)]; exact hke)
    rw [hP1get j hj (by omega)] at this
    apply List.mem_iff_getElem.mpr
    refine ⟨k, by simpa using hk3, ?_⟩
    rw [List.getElem_map, this]
    exact hgs _ _
  have hnames1char : ∀ x ∈ st1.map getN,
      (x ∈ st.map getN ∧ x ∉ items) ∨ ∃ j, j < items.length ∧ x = TEMP_MARKER ++ mk j := by
    intro x hx
    obtain ⟨k, hk, hke⟩ := List.mem_iff_getElem.mp hx
    rw [List.getElem_map] at hke
    have hk1 : k < st1.length := by simpa using hk
    have hk2 : k < st.length := by omega
    by_cases hin : getN st[k] ∈ items
    · obtain ⟨j, hj, hje⟩ := List.mem_iff_getElem.mp hin
      right
      refine ⟨j, hj, ?_⟩
      have := (hchar1 k hk2 hk1).1 j (by omega) (by rw [hP1get j hj (by omega)]; exact hje.symm)
      rw [hP1get j hj (by omega)] at this
      rw [← hke, this]
      exact hgs _ _
    · left
      have := (hchar1 k hk2 hk1).2 (by rw [hfst_eq]; exact hin)
      rw [← hke, this]
      exact ⟨List.mem_iff_getElem.mpr ⟨k, by simpa using hk2, by rw [List.getElem_map]⟩, hin⟩
  -- phase 2 pairs
  have hmap_snd : (items.zipWith (fun o j => (o, mk j)) (List.range' 0 items.length)).map
      Prod.snd = (List.range' 0 items.length).map mk := zipWith_pair_snd _ items _ hlenr
  have hP2 : (((List.range' 0 items.length).map (fun j => TEMP_MARKER ++ mk j)).zip
        (((items.zipWith (fun o j => (o, mk j)) (List.range' 0 items.length)).map Prod.snd))) =
      (List.range' 0 items.length).map (fun j => (TEMP_MARKER ++ mk j, mk j)) := by
    rw [hmap_snd]
    exact zip_map_pair _ _ _
  have hfinals_nodup : ((List.range' 0 items.length).map mk).Nodup := by
    apply List.Nodup.map_on ?_ (List.nodup_range' _ _)
    intro x hx y hy hxy
    exact hmkinj x y (hrange_mem x hx) (hrange_mem y hy) hxy
  obtain ⟨st2, hrun2, hlen2, hnd2, hchar2⟩ :=
    phase2_ok getN setN hgs
      ((List.range' 0 items.length).map (fun j => (TEMP_MARKER ++ mk j, mk j))) st1
      hnd1
      (by
        have : ((List.range' 0 items.length).map (fun j => (TEMP_MARKER ++ mk j, mk j))).map
            Prod.fst = (List.range' 0 items.length).map (fun j => TEMP_MARKER ++ mk j) := by
          rw [List.map_map]
          rfl
        rw [this]
        exact htmps_nodup)
      (by
        intro p hp
        obtain ⟨j, hj, hje⟩ := List.mem_map.mp hp
        rw [← hje]
        exact htmpsmem j (hrange_mem j hj))
      (by
        have : ((List.range' 0 items.length).map (fun j => (TEMP_MARKER ++ mk j, mk j))).map
            Prod.snd = (List.range' 0 items.length).map mk := by
          rw [List.map_map]
          rfl
        rw [this]
        exact hfinals_nodup)
      (by
        intro p hp hcontra
        obtain ⟨j, hj, hje⟩ := List.mem_map.mp hp
        have hjlen := hrange_mem j hj
        have hsnd : p.2 = mk j := by rw [← hje]
        rw [hsnd] at hcontra
        cases hnames1char _ hcontra with
        | inl h =>
          cases hmkfresh j hjlen with
          | inl h2 => exact h2 h.1
          | inr h2 => exact h.2 h2
        | inr h =>
          obtain ⟨j2, hj2, he⟩ := h
          have h1 := hmkclean j hjlen
          rw [he, startsTemp_marker_append] at h1
          cases h1)
  refine ⟨st2, ?_, by omega, hnd2, ?_⟩
  · unfold rename_two_phase
    rw [phase1_eq_phase2 getN setN mk items 0 st, hrun1]
    simp only
    rw [hP2, hrun2]
  · intro k hk hk2
    have hk1 : k < st1.length := by omega
    constructor
    · intro j hj hkj
      have hs1 := (hchar1 k hk hk1).1 j (by omega) (by rw [hP1get j hj (by omega)]; exact hkj)
      rw [hP1get j hj (by omega)] at hs1
      have hgn1 : getN st1[k] = TEMP_MARKER ++ mk j := by rw [hs1]; exact hgs _ _
      have hP2len : ((List.range' 0 items.length).map
          (fun j => (TEMP_MARKER ++ mk j, mk j))).length = items.length := by
        rw [List.length_map, List.length_range']
      have hj2 : j < ((List.range' 0 items.length).map
          (fun j => (TEMP_MARKER ++ mk j, mk j))).length := by omega
      have hP2get : ((List.range' 0 items.length).map
          (fun j => (TEMP_MARKER ++ mk j, mk j)))[j] =
            (TEMP_MARKER ++ mk j, mk j) := by
        rw [List.getElem_map, List.getElem_range']
        simp
      have hs2 := (hchar2 k hk1 hk2).1 j hj2 (by rw [hP2get]; exact hgn1)
      rw [hP2get] at hs2
      rw [hs2, hs1, hss]
    · intro hnotin
      have hs1 := (hchar1 k hk hk1).2 (by rw [hfst_eq]; exact hnotin)
      have hgn1 : getN st1[k] = getN st[k] := by rw [hs1]
      have hnotin2 : getN st1[k] ∉ ((List.range' 0 items.length).map
          (fun j => (TEMP_MARKER ++ mk j, mk j))).map Prod.fst := by
        intro hcontra
        obtain ⟨q, hq, hqe⟩ := List.mem_map.mp hcontra
        obtain ⟨j, hj, hje⟩ := List.mem_map.mp hq
        have hq1 : q.1 = TEMP_MARKER ++ mk j := by rw [← hje]
        have hcl : startsTemp (getN st[k]) = false := by
          apply hclean
          exact List.mem_iff_getElem.mpr ⟨k, by simpa using hk, by rw [List.getElem_map]⟩
        rw [← hgn1, ← hqe, hq1, startsTemp_marker_append] at hcl
        cases hcl
      have hs2 := (hchar2 k hk1 hk2).2 hnotin2
      rw [hs2, hs1]

/-! ### Claims about rename_two_phase -/

/-- C7: whenever `rename_two_phase` returns, the returned mapping lists
the items in input order, pairing the i-th input name with the i-th
generated final name, one pair per item. -/
theorem rename_two_phase_returns_mapping {A : Type} (getN : A → String)
    (setN : String → A → A) (items : List String) (mk : Nat → String)
    (st st2 : List A) (m : List (String × String))
    (h : rename_two_phase getN setN items mk st = Except.ok (st2, m)) :
    m.length = items.length ∧
      ∀ j (hj : j < items.length) (hj2 : j < m.length), m[j] = (items[j], mk j) := by
  unfold rename_two_phase at h
  rw [phase1_eq_phase2 getN setN mk items 0 st] at h
  cases h1 : phase2 getN setN
      (items.zipWith (fun o j => (o, TEMP_MARKER ++ mk j)) (List.range' 0 items.length)) st with
  | error e => rw [h1] at h; cases h
  | ok st1 =>
    rw [h1] at h
    simp only at h
    cases h2 : phase2 getN setN
        (((List.range' 0 items.length).map (fun j => TEMP_MARKER ++ mk j)).zip
          ((items.zipWith (fun o j => (o, mk j)) (List.range' 0 items.length)).map Prod.snd)) st1 with
    | error e => rw [h2] at h; cases h
    | ok st3 =>
      rw [h2] at h
      simp only [Except.ok.injEq, Prod.mk.injEq] at h
      obtain ⟨_, hm⟩ := h
      subst hm
      constructor
      · rw [List.length_zipWith, List.length_range']
        omega
      · intro j hj hj2
        rw [List.getElem_zipWith, List.getElem_range']
        norm_num

/-- Witness for C7 on a concrete run: one file renamed "a" to "b". -/
theorem rename_two_phase_returns_mapping_witness :
    ([("a", "b")] : List (String × String)).length = (["a"] : List String).length ∧
      ∀ j (hj : j < (["a"] : List String).length)
        (hj2 : j < ([("a", "b")] : List (String × String)).length),
        ([("a", "b")] : List (String × String))[j] =
          ((["a"] : List String)[j], (fun _ => "b") j) :=
  rename_two_phase_returns_mapping (fun s => s) (fun n _ => n) ["a"] (fun _ => "b")
    ["a"] ["b"] [("a", "b")] rfl

/-- Counterexample for C2: the items "a" and "__dftemp_b" are distinct
and the generator 0 to "b", else "c" is injective on the positions, yet
phase 1 renames "a" onto the marked name "__dftemp_b", which is another
entry's current name, so the run fails instead of renaming every entry. -/
theorem rename_two_phase_marked_item_collides :
    rename_two_phase (fun s : String => s) (fun n _ => n) ["a", "__dftemp_b"]
      (fun i => if i = 0 then "b" else "c") ["a", "__dftemp_b"] = Except.error () := rfl

/-- C2 (amended): for a directory whose entries are exactly the listed
items, the two-phase rename sends every entry to its final name with no
intermediate collision (the model's rename errors on any collision, so
returning `ok` is collision freedom) - provided, beyond distinctness and
injectivity, that no entry name and no final name carries the reserved
marker "__dftemp_".  Final names may freely overlap the original names. -/
theorem rename_two_phase_total_rename (items : List String) (mk : Nat → String)
    (hind : items.Nodup)
    (hclean : ∀ x ∈ items, startsTemp x = false)
    (hmkinj : ∀ i j, i < items.length → j < items.length → mk i = mk j → i = j)
    (hmkclean : ∀ i, i < items.length → startsTemp (mk i) = false) :
    rename_two_phase (fun s => s) (fun n _ => n) items mk items =
      Except.ok ((List.range' 0 items.length).map mk,
        items.zipWith (fun o j => (o, mk j)) (List.range' 0 items.length)) := by
  have hmap : items.map (fun s => s) = items := by
    simp
  obtain ⟨st2, hrun, hlen, _, hchar⟩ :=
    rename_two_phase_ok (fun s => s) (fun n _ => n) (fun _ _ => rfl) (fun _ _ _ => rfl)
      items mk items
      (by rw [hmap]; exact hind) hind
      (by intro o ho; rw [hmap]; exact ho)
      (by intro x hx; rw [hmap] at hx; exact hclean x hx)
      hmkinj hmkclean
      (by
        intro i hi
        by_cases h : mk i ∈ items
        · right; exact h
        · left; rw [hmap]; exact h)
  have hst2 : st2 = (List.range' 0 items.length).map mk := by
    apply List.ext_getElem
    · rw [List.length_map, List.length_range']
      omega
    · intro k hk1 hk2
      have hk : k < items.length := by omega
      have := (hchar k hk (by omega)).1 k hk rfl
      rw [this, List.getElem_map, List.getElem_range']
      norm_num
  rw [← hst2]
  exact hrun

/-- Witness for C2 on the spec's swap scenario: "002.mp3" and
"001.mp3", discovered in reverse order, are exchanged with no loss. -/
theorem rename_two_phase_total_rename_witness :
    rename_two_phase (fun s : String => s) (fun n _ => n) ["002.mp3", "001.mp3"]
      (fun i => if i = 0 then "001.mp3" else "002.mp3") ["002.mp3", "001.mp3"] =
      Except.ok (["001.mp3", "002.mp3"],
        [("002.mp3", "001.mp3"), ("001.mp3", "002.mp3")]) :=
  rename_two_phase_total_rename ["002.mp3", "001.mp3"]
    (fun i => if i = 0 then "001.mp3" else "002.mp3")
    (by decide) (by decide)
    (by
      intro i j hi hj h
      simp only [List.length_cons, List.length_nil] at hi hj
      interval_cases i <;> interval_cases j <;> simp_all)
    (by
      intro i hi
      simp only [List.length_cons, List.length_nil] at hi
      interval_cases i <;> decide)

/-- Counterexample for C10: with the clean, distinct items "a", "b" and
the injective generator 0 to "__dftemp_c", else "c", phase 2 renames
the temporary for "a" onto "__dftemp_c", which is exactly the current
temporary name of "b", so an entry would be overwritten and the model
errors. -/
theorem rename_two_phase_marked_final_collides :
    rename_two_phase (fun s : String => s) (fun n _ => n) ["a", "b"]
      (fun i => if i = 0 then "__dftemp_c" else "c") ["a", "b"] = Except.error () := rfl

/-- C10 (amended): on a directory with distinct names none of which
carries the reserved marker, renaming any distinct subset of its
entries through an injective generator whose final names also avoid the
marker and do not collide with untouched entries succeeds with no step
targeting another entry's current name, and the entry count is
preserved throughout (each modelled rename preserves the length and
errors on collision). -/
theorem rename_two_phase_preserves_entry_count {A : Type} (getN : A → String)
    (setN : String → A → A)
    (hgs : ∀ n e, getN (setN n e) = n)
    (hss : ∀ m n e, setN m (setN n e) = setN m e)
    (items : List String) (mk : Nat → String) (st : List A)
    (hstnd : (st.map getN).Nodup)
    (hind : items.Nodup)
    (hsub : ∀ o ∈ items, o ∈ st.map getN)
    (hclean : ∀ x ∈ st.map getN, startsTemp x = false)
    (hmkinj : ∀ i j, i < items.length → j < items.length → mk i = mk j → i = j)
    (hmkclean : ∀ i, i < items.length → startsTemp (mk i) = false)
    (hmkfresh : ∀ i, i < items.length → mk i ∉ st.map getN ∨ mk i ∈ items) :
    ∃ st2, rename_two_phase getN setN items mk st =
        Except.ok (st2, items.zipWith (fun o j => (o, mk j)) (List.range' 0 items.length)) ∧
      st2.length = st.length ∧ (st2.map getN).Nodup := by
  obtain ⟨st2, hrun, hlen, hnd, _⟩ :=
    rename_two_phase_ok getN setN hgs hss items mk st hstnd hind hsub hclean
      hmkinj hmkclean hmkfresh
  exact ⟨st2, hrun, hlen, hnd⟩

/-- Witness for C10: renaming "a" to "b" next to an untouched entry
"keep.txt" keeps both entries. -/
theorem rename_two_phase_preserves_entry_count_witness :
    ∃ st2, rename_two_phase (fun s : String => s) (fun n _ => n) ["a"] (fun _ => "b")
        ["a", "keep.txt"] =
        Except.ok (st2, (["a"] : List String).zipWith (fun o j => (o, (fun _ => "b") j))
          (List.range' 0 (["a"] : List String).length)) ∧
      st2.length = (["a", "keep.txt"] : List String).length ∧
      (st2.map (fun s => s)).Nodup :=
  rename_two_phase_preserves_entry_count (fun s => s) (fun n _ => n)
    (fun _ _ => rfl) (fun _ _ _ => rfl) ["a"] (fun _ => "b") ["a", "keep.txt"]
    (by decide) (by decide) (by decide) (by decide)
    (by
      intro i j hi hj _
      simp only [List.length_cons, List.length_nil] at hi hj
      omega)
    (by
      intro i hi
      show startsTemp "b" = false
      decide)
    (by
      intro i hi
      left
      show ("b" : String) ∉ List.map (fun s => s) ["a", "keep.txt"]
      decide)

/-! ### Folder helpers for the driver proofs -/

/-- The `.mp3` entries of a folder in listing order. -/
def mp3Names (f : Folder) : List String := f.files.filter isMp3

/-- Number of `.mp3` entries of the folder named `n`. -/
def mp3CountOf (fs : FS) (n : String) : Nat :=
  match findFolder fs n with
  | some f => (mp3Names f).length
  | none => 0

/-- The sorted `.mp3` names of the folder named `n`. -/
def sortedMp3sOf (fs : FS) (n : String) : List String :=
  match findFolder fs n with
  | some f => collect_mp3s f
  | none => []

/-- No name anywhere in the tree carries the reserved marker. -/
def FS.clean (fs : FS) : Prop :=
  ∀ f ∈ fs.folders, startsTemp f.name = false ∧ ∀ x ∈ f.files, startsTemp x = false

instance : DecidablePred FS.clean := fun fs =>
  inferInstanceAs (Decidable (∀ f ∈ fs.folders,
    startsTemp f.name = false ∧ ∀ x ∈ f.files, startsTemp x = false))

theorem mem_collect_mp3s {fol : Folder} {x : String} :
    x ∈ collect_mp3s fol ↔ x ∈ fol.files ∧ isMp3 x = true := by
  unfold collect_mp3s
  rw [(sortNames_perm _).mem_iff]
  exact List.mem_filter

theorem collect_mp3s_nodup {fol : Folder} (h : fol.files.Nodup) :
    (collect_mp3s fol).Nodup :=
  ((sortNames_perm _).nodup_iff).mpr (h.filter isMp3)

theorem collect_mp3s_length {fol : Folder} :
    (collect_mp3s fol).length = (mp3Names fol).length :=
  (sortNames_perm _).length_eq

theorem findFolder_mem {fs : FS} {n : String} (h : n ∈ fs.folders.map Folder.name) :
    ∃ fol, findFolder fs n = some fol ∧ fol ∈ fs.folders ∧ fol.name = n := by
  obtain ⟨fol, hmem, hname⟩ := List.mem_map.mp h
  have hsome : (fs.folders.find? (fun f => f.name == n)).isSome = true := by
    rw [List.find?_isSome]
    exact ⟨fol, hmem, by rw [hname]; simp⟩
  cases hf : fs.folders.find? (fun f => f.name == n) with
  | none => rw [hf] at hsome; cases hsome
  | some fol2 =>
    refine ⟨fol2, hf, List.mem_of_find?_eq_some hf, ?_⟩
    have := List.find?_some hf
    exact eq_of_beq this

theorem findFolder_unique {fs : FS} {n : String} {fol : Folder}
    (hnd : (fs.folders.map Folder.name).Nodup)
    (hf : findFolder fs n = some fol)
    {k : Nat} (hk : k < fs.folders.length)
    (hkn : (fs.folders[k]).name = n) : fs.folders[k] = fol := by
  have hf2 : fs.folders.find? (fun f => f.name == n) = some fol := hf
  have hmem := List.mem_of_find?_eq_some hf2
  have hp := List.find?_some hf2
  have hname : fol.name = n := eq_of_beq hp
  obtain ⟨k2, hk2, hke⟩ := List.mem_iff_getElem.mp hmem
  have hkm : k < (fs.folders.map Folder.name).length := by simpa using hk
  have hk2m : k2 < (fs.folders.map Folder.name).length := by simpa using hk2
  have heq : (fs.folders.map Folder.name)[k] =
      (fs.folders.map Folder.name)[k2] := by
    rw [List.getElem_map, List.getElem_map, hkn, hke, hname]
  have := (List.Nodup.getElem_inj_iff hnd).mp heq
  subst this
  exact hke

theorem update_names (fs : FS) (n : String) (fl : List String) :
    (updateFolderFiles fs n fl).folders.map Folder.name = fs.folders.map Folder.name := by
  unfold updateFolderFiles
  rw [List.map_map]
  apply List.map_congr_left
  intro f _
  by_cases h : f.name = n <;> simp [h]

theorem update_length (fs : FS) (n : String) (fl : List String) :
    (updateFolderFiles fs n fl).folders.length = fs.folders.length := by
  show (fs.folders.map (fun f => if f.name = n then Folder.mk f.name fl else f)).length =
    fs.folders.length
  rw [List.length_map]

theorem update_getElem (fs : FS) (n : String) (fl : List String)
    {k : Nat} (hk : k < fs.folders.length) (hk2 : k < (updateFolderFiles fs n fl).folders.length) :
    (updateFolderFiles fs n fl).folders[k] =
      if (fs.folders[k]).name = n then Folder.mk (fs.folders[k]).name fl
      else fs.folders[k] := by
  unfold updateFolderFiles
  rw [List.getElem_map]

theorem find?_congr_pred {α : Type} {p q : α → Bool} :
    ∀ l : List α, (∀ x, p x = q x) → List.find? p l = List.find? q l := by
  intro l h
  induction l with
  | nil => rfl
  | cons a l ih => simp [List.find?_cons, h a, ih]

theorem findFolder_update_other (fs : FS) (n m : String) (fl : List String) (hnm : m ≠ n) :
    findFolder (updateFolderFiles fs n fl) m = findFolder fs m := by
  unfold findFolder updateFolderFiles
  rw [List.find?_map]
  have hpc : ∀ f : Folder,
      ((fun f : Folder => f.name == m) ∘
        (fun f : Folder => if f.name = n then Folder.mk f.name fl else f)) f =
      (fun f : Folder => f.name == m) f := by
    intro f
    by_cases h : f.name = n <;> simp [h]
  rw [find?_congr_pred _ hpc]
  cases hf : fs.folders.find? (fun f => f.name == m) with
  | none => rfl
  | some fol =>
    have hp := List.find?_some hf
    have hname : fol.name = m := eq_of_beq hp
    show some (if fol.name = n then Folder.mk fol.name fl else fol) = some fol
    rw [if_neg (by rw [hname]; exact hnm)]

/-! ### One folder's file-renaming step -/

theorem canonFileNames_nodup (M : Nat) : (canonFileNames M).Nodup :=
  nodup_of_pairwise_natLtR (canonFileNames_pairwise M)

theorem canonFolderNames_nodup (N : Nat) : (canonFolderNames N).Nodup :=
  nodup_of_pairwise_natLtR (canonFolderNames_pairwise N)

theorem folder_step (fol : Folder) (hnd : fol.files.Nodup)
    (hclean : ∀ x ∈ fol.files, startsTemp x = false) :
    ∃ files2, rename_two_phase (fun s => s) (fun n _ => n) (collect_mp3s fol) mkFileName
        fol.files =
        Except.ok (files2, (collect_mp3s fol).zipWith (fun o j => (o, mkFileName j))
          (List.range' 0 (collect_mp3s fol).length)) ∧
      files2.length = fol.files.length ∧
      files2.Nodup ∧
      (∀ x ∈ files2, startsTemp x = false) ∧
      ∀ k (hk : k < fol.files.length) (hk2 : k < files2.length),
        (∀ j (hj : j < (collect_mp3s fol).length), fol.files[k] = (collect_mp3s fol)[j] →
          files2[k] = mkFileName j) ∧
        (fol.files[k] ∉ collect_mp3s fol → files2[k] = fol.files[k]) := by
  have hmap : ∀ l : List String, l.map (fun s => s) = l := by
    intro l
    simp
  obtain ⟨files2, hrun, hlen, hnd2, hchar⟩ :=
    rename_two_phase_ok (fun s => s) (fun n _ => n) (fun _ _ => rfl) (fun _ _ _ => rfl)
      (collect_mp3s fol) mkFileName fol.files
      (by rw [hmap]; exact hnd)
      (collect_mp3s_nodup hnd)
      (by
        intro o ho
        rw [hmap]
        exact (mem_collect_mp3s.mp ho).1)
      (by
        intro x hx
        rw [hmap] at hx
        exact hclean x hx)
      (fun i j _ _ h => mkFileName_inj h)
      (fun i _ => startsTemp_mkFileName i)
      (by
        intro i _
        by_cases h : mkFileName i ∈ collect_mp3s fol
        · right; exact h
        · left
          rw [hmap]
          intro hcontra
          exact h (mem_collect_mp3s.mpr ⟨hcontra, isMp3_mkFileName i⟩))
  rw [hmap] at hnd2
  refine ⟨files2, hrun, hlen, hnd2, ?_, ?_⟩
  · intro x hx
    obtain ⟨k, hk2, hke⟩ := List.mem_iff_getElem.mp hx
    have hk : k < fol.files.length := by omega
    by_cases hin : fol.files[k] ∈ collect_mp3s fol
    · obtain ⟨j, hj, hje⟩ := List.mem_iff_getElem.mp hin
      have := (hchar k hk hk2).1 j hj hje.symm
      rw [← hke, this]
      exact startsTemp_mkFileName j
    · have := (hchar k hk hk2).2 hin
      rw [← hke, this]
      exact hclean _ (List.getElem_mem hk)
  · intro k hk hk2
    exact hchar k hk hk2

theorem filter_perm_canon (files files2 mp3s : List String)
    (hf2nd : files2.Nodup)
    (hmp : ∀ x, x ∈ mp3s ↔ x ∈ files ∧ isMp3 x = true)
    (hlen : files2.length = files.length)
    (hchar : ∀ k (hk : k < files.length) (hk2 : k < files2.length),
       (∀ j (hj : j < mp3s.length), files[k] = mp3s[j] → files2[k] = mkFileName j) ∧
       (files[k] ∉ mp3s → files2[k] = files[k])) :
    (files2.filter isMp3).Perm (canonFileNames mp3s.length) := by
  apply List.perm_of_nodup_nodup_toFinset_eq (hf2nd.filter isMp3)
    (canonFileNames_nodup mp3s.length)
  apply Finset.ext
  intro x
  rw [List.mem_toFinset, List.mem_toFinset, List.mem_filter]
  constructor
  · rintro ⟨hx2, hxm⟩
    obtain ⟨k, hk2, hke⟩ := List.mem_iff_getElem.mp hx2
    have hk : k < files.length := by omega
    by_cases hin : files[k] ∈ mp3s
    · obtain ⟨j, hj, hje⟩ := List.mem_iff_getElem.mp hin
      have := (hchar k hk hk2).1 j hj hje.symm
      unfold canonFileNames
      rw [← hke, this]
      exact List.mem_map_of_mem mkFileName (List.mem_range.mpr hj)
    · exfalso
      have := (hchar k hk hk2).2 hin
      apply hin
      apply (hmp files[k]).mpr
      refine ⟨List.getElem_mem hk, ?_⟩
      rw [← this, hke]
      exact hxm
  · intro hx
    unfold canonFileNames at hx
    obtain ⟨j, hj, hje⟩ := List.mem_map.mp hx
    rw [List.mem_range] at hj
    have hjm : mp3s[j] ∈ files := ((hmp _).mp (List.getElem_mem hj)).1
    obtain ⟨k, hk, hke⟩ := List.mem_iff_getElem.mp hjm
    have hk2 : k < files2.length := by omega
    have := (hchar k hk hk2).1 j hj hke
    constructor
    · rw [← hje, ← this]
      exact List.getElem_mem hk2
    · rw [← hje]
      exact isMp3_mkFileName j

/-! ### The file-renaming pass over all folders -/

theorem fileLoop_ok :
    ∀ (pending : List String) (fs : FS) (reps : List (String × List (String × String)))
      (warns : List String) (total : Nat),
      (fs.folders.map Folder.name).Nodup →
      (∀ f ∈ fs.folders, f.files.Nodup) →
      (∀ f ∈ fs.folders, ∀ x ∈ f.files, startsTemp x = false) →
      pending.Nodup →
      (∀ n ∈ pending, n ∈ fs.folders.map Folder.name) →
      (∀ n ∈ pending, mp3CountOf fs n ≤ 255) →
      ∃ fs2 total2,
        fileLoop pending fs reps warns total =
          Except.ok (fs2,
            reps ++ (pending.filter (fun n => !(sortedMp3sOf fs n).isEmpty)).map
              (fun n => (n, (sortedMp3sOf fs n).zipWith (fun o j => (o, mkFileName j))
                (List.range' 0 (sortedMp3sOf fs n).length))),
            warns ++ pending.filter (fun n => (sortedMp3sOf fs n).isEmpty), total2) ∧
        fs2.folders.length = fs.folders.length ∧
        ∀ k (hk : k < fs.folders.length) (hk2 : k < fs2.folders.length),
          (fs2.folders[k]).name = (fs.folders[k]).name ∧
          ((fs.folders[k]).name ∉ pending → fs2.folders[k] = fs.folders[k]) ∧
          ((fs.folders[k]).name ∈ pending →
            ∃ files2, fs2.folders[k] = Folder.mk (fs.folders[k]).name files2 ∧
              files2.length = (fs.folders[k]).files.length ∧
              files2.Nodup ∧
              (∀ x ∈ files2, startsTemp x = false) ∧
              ∀ m (hm : m < (fs.folders[k]).files.length) (hm2 : m < files2.length),
                (∀ j (hj : j < (sortedMp3sOf fs ((fs.folders[k]).name)).length),
                  (fs.folders[k]).files[m] = (sortedMp3sOf fs ((fs.folders[k]).name))[j] →
                    files2[m] = mkFileName j) ∧
                ((fs.folders[k]).files[m] ∉ sortedMp3sOf fs ((fs.folders[k]).name) →
                  files2[m] = (fs.folders[k]).files[m])) := by
  intro pending
  induction pending with
  | nil =>
    intro fs reps warns total hndn hndf hcl _ _ _
    refine ⟨fs, total, by simp [fileLoop], rfl, ?_⟩
    intro k hk hk2
    refine ⟨rfl, fun _ => rfl, ?_⟩
    intro hmem
    exact absurd hmem (by simp)
  | cons n rest ih =>
    intro fs reps warns total hndn hndf hcl hpnd hpmem hpcount
    have hnin : n ∉ rest := (List.nodup_cons.mp hpnd).1
    have hrestnd : rest.Nodup := (List.nodup_cons.mp hpnd).2
    obtain ⟨fol, hfind, hfmem, hfname⟩ :=
      findFolder_mem (hpmem n (List.mem_cons_self n rest))
    have hsort_eq : sortedMp3sOf fs n = collect_mp3s fol := by
      unfold sortedMp3sOf
      rw [hfind]
    by_cases hempty : (collect_mp3s fol).isEmpty
    · -- the folder holds no mp3 file: warn and skip
      have hrun : fileLoop (n :: rest) fs reps warns total =
          fileLoop rest fs reps (warns ++ [n]) total := by
        simp only [fileLoop, hfind]
        rw [if_pos hempty]
      obtain ⟨fs2, total2, hrun2, hlen2, hchar2⟩ :=
        ih fs reps (warns ++ [n]) total hndn hndf hcl hrestnd
          (fun m hm => hpmem m (List.mem_cons_of_mem n hm))
          (fun m hm => hpcount m (List.mem_cons_of_mem n hm))
      refine ⟨fs2, total2, ?_, hlen2, ?_⟩
      · rw [hrun, hrun2]
        have hfilters :
            (n :: rest).filter (fun m => !(sortedMp3sOf fs m).isEmpty) =
              rest.filter (fun m => !(sortedMp3sOf fs m).isEmpty) := by
          rw [List.filter_cons]
          rw [if_neg (by rw [hsort_eq, hempty]; simp)]
        have hfilters2 :
            (n :: rest).filter (fun m => (sortedMp3sOf fs m).isEmpty) =
              n :: rest.filter (fun m => (sortedMp3sOf fs m).isEmpty) := by
          rw [List.filter_cons]
          rw [if_pos (by rw [hsort_eq]; exact hempty)]
        rw [hfilters, hfilters2, List.append_assoc]
        rfl
      · intro k hk hk2
        obtain ⟨hname2, hunch2, hpend2⟩ := hchar2 k hk hk2
        refine ⟨hname2, ?_, ?_⟩
        · intro hnm
          exact hunch2 (fun hc => hnm (List.mem_cons_of_mem n hc))
        · intro hmem
          cases List.mem_cons.mp hmem with
          | inr hmemr => exact hpend2 hmemr
          | inl hmemn =>
            have hnotr : (fs.folders[k]).name ∉ rest := by
              rw [hmemn]; exact hnin
            have hunch := hunch2 hnotr
            refine ⟨(fs.folders[k]).files, by rw [hunch], rfl,
              hndf _ (List.getElem_mem hk), hcl _ (List.getElem_mem hk), ?_⟩
            intro m hm hm2
            constructor
            · intro j hj
              exfalso
              rw [hmemn, hsort_eq] at hj
              rw [List.isEmpty_iff_length_eq_zero] at hempty
              omega
            · intro _
              rfl
    · -- the folder has files to rename
      have hcount : ¬ 255 < (collect_mp3s fol).length := by
        have h1 := hpcount n (List.mem_cons_self n rest)
        unfold mp3CountOf at h1
        rw [hfind] at h1
        have h2 : (mp3Names fol).length ≤ 255 := h1
        rw [collect_mp3s_length]
        omega
      obtain ⟨files2, hrun1, hflen, hfnd2, hfcl2, hfchar⟩ :=
        folder_step fol (hndf fol hfmem) (hcl fol hfmem)
      have hrun : fileLoop (n :: rest) fs reps warns total =
          fileLoop rest (updateFolderFiles fs n files2)
            (reps ++ [(n, (collect_mp3s fol).zipWith (fun o j => (o, mkFileName j))
              (List.range' 0 (collect_mp3s fol).length))]) warns
            (total + ((collect_mp3s fol).zipWith (fun o j => (o, mkFileName j))
              (List.range' 0 (collect_mp3s fol).length)).length) := by
        simp only [fileLoop, hfind]
        rw [if_neg hempty, if_neg hcount, hrun1]
      set fs1 := updateFolderFiles fs n files2 with hfs1
      have hnames1 : fs1.folders.map Folder.name = fs.folders.map Folder.name :=
        update_names fs n files2
      have hrest_find : ∀ m ∈ rest, findFolder fs1 m = findFolder fs m := by
        intro m hm
        exact findFolder_update_other fs n m files2 (fun hc => hnin (hc ▸ hm))
      have hrest_sorted : ∀ m ∈ rest, sortedMp3sOf fs1 m = sortedMp3sOf fs m := by
        intro m hm
        unfold sortedMp3sOf
        rw [hrest_find m hm]
      have hrest_count : ∀ m ∈ rest, mp3CountOf fs1 m = mp3CountOf fs m := by
        intro m hm
        unfold mp3CountOf
        rw [hrest_find m hm]
      have hlen1 : fs1.folders.length = fs.folders.length := update_length fs n files2
      obtain ⟨fs2, total2, hrun2, hlen2, hchar2⟩ :=
        ih fs1 (reps ++ [(n, (collect_mp3s fol).zipWith (fun o j => (o, mkFileName j))
            (List.range' 0 (collect_mp3s fol).length))]) warns
          (total + ((collect_mp3s fol).zipWith (fun o j => (o, mkFileName j))
            (List.range' 0 (collect_mp3s fol).length)).length)
          (by rw [hnames1]; exact hndn)
          (by
            intro f hf
            obtain ⟨f0, hf0, hfe⟩ := List.mem_map.mp hf
            by_cases h : f0.name = n
            · rw [← hfe, if_pos h]
              exact hfnd2
            · rw [← hfe, if_neg h]
              exact hndf f0 hf0)
          (by
            intro f hf
            obtain ⟨f0, hf0, hfe⟩ := List.mem_map.mp hf
            by_cases h : f0.name = n
            · rw [← hfe, if_pos h]
              exact hfcl2
            · rw [← hfe, if_neg h]
              exact hcl f0 hf0)
          hrestnd
          (by
            intro m hm
            rw [hnames1]
            exact hpmem m (List.mem_cons_of_mem n hm))
          (by
            intro m hm
            rw [hrest_count m hm]
            exact hpcount m (List.mem_cons_of_mem n hm))
      have hempty_false : (collect_mp3s fol).isEmpty = false := by
        cases h : (collect_mp3s fol).isEmpty
        · rfl
        · exact absurd h hempty
      refine ⟨fs2, total2, ?_, by omega, ?_⟩
      · rw [hrun, hrun2]
        have hfilters :
            (n :: rest).filter (fun m => !(sortedMp3sOf fs m).isEmpty) =
              n :: rest.filter (fun m => !(sortedMp3sOf fs m).isEmpty) := by
          rw [List.filter_cons]
          rw [if_pos (by rw [hsort_eq, hempty_false]; rfl)]
        have hfilters2 :
            (n :: rest).filter (fun m => (sortedMp3sOf fs m).isEmpty) =
              rest.filter (fun m => (sortedMp3sOf fs m).isEmpty) := by
          rw [List.filter_cons]
          rw [if_neg (by rw [hsort_eq]; exact hempty)]
        have hfcongr : rest.filter (fun m => !(sortedMp3sOf fs1 m).isEmpty) =
            rest.filter (fun m => !(sortedMp3sOf fs m).isEmpty) :=
          List.filter_congr (fun m hm => by rw [hrest_sorted m hm])
        have hmcongr :
            (rest.filter (fun m => !(sortedMp3sOf fs m).isEmpty)).map
              (fun m => (m, (sortedMp3sOf fs1 m).zipWith (fun o j => (o, mkFileName j))
                (List.range' 0 (sortedMp3sOf fs1 m).length))) =
            (rest.filter (fun m => !(sortedMp3sOf fs m).isEmpty)).map
              (fun m => (m, (sortedMp3sOf fs m).zipWith (fun o j => (o, mkFileName j))
                (List.range' 0 (sortedMp3sOf fs m).length))) := by
          apply List.map_congr_left
          intro m hm
          rw [hrest_sorted m (List.mem_of_mem_filter hm)]
        have hwcongr : rest.filter (fun m => (sortedMp3sOf fs1 m).isEmpty) =
            rest.filter (fun m => (sortedMp3sOf fs m).isEmpty) :=
          List.filter_congr (fun m hm => by rw [hrest_sorted m hm])
        rw [hfcongr, hmcongr, hwcongr, hfilters, hfilters2]
        rw [List.map_cons, List.append_assoc]
        rw [hsort_eq]
        rfl
      · intro k hk hk2
        have hk1 : k < fs1.folders.length := by omega
        have hupget := update_getElem fs n files2 hk hk1
        have hname1 : (fs1.folders[k]).name = (fs.folders[k]).name := by
          rw [hupget]
          by_cases h : (fs.folders[k]).name = n <;> simp [h]
        obtain ⟨hname2, hunch2, hpend2⟩ := hchar2 k hk1 hk2
        refine ⟨by rw [hname2, hname1], ?_, ?_⟩
        · intro hnm
          have hne : (fs.folders[k]).name ≠ n := fun hc => hnm (hc ▸ List.mem_cons_self n rest)
          have hnr : (fs.folders[k]).name ∉ rest :=
            fun hc => hnm (List.mem_cons_of_mem n hc)
          have h1 : fs1.folders[k] = fs.folders[k] := by rw [hupget, if_neg hne]
          have := hunch2 (by rw [hname1]; exact hnr)
          rw [this, h1]
        · intro hmem
          cases List.mem_cons.mp hmem with
          | inl hmemn =>
            -- this folder was renamed in this step
            have hfolk : fs.folders[k] = fol := findFolder_unique hndn hfind hk hmemn
            have h1 : fs1.folders[k] = Folder.mk (fs.folders[k]).name files2 := by
              rw [hupget, if_pos hmemn]
            have hnr : (fs1.folders[k]).name ∉ rest := by
              rw [hname1, hmemn]; exact hnin
            have hunch := hunch2 hnr
            rw [hfolk, hfname, hsort_eq]
            refine ⟨files2, ?_, hflen, hfnd2, hfcl2, hfchar⟩
            rw [hunch, h1, hfolk, hfname]
          | inr hmemr =>
            have hne : (fs.folders[k]).name ≠ n := fun hc => hnin (hc ▸ hmemr)
            have h1 : fs1.folders[k] = fs.folders[k] := by rw [hupget, if_neg hne]
            have hpend := hpend2 (by rw [hname1]; exact hmemr)
            rw [h1] at hpend
            rw [← hrest_sorted _ hmemr]
            exact hpend

/-! ### The full driver run on a clean, bounded tree -/

theorem collect_folders_perm (fs : FS) :
    (collect_folders fs).Perm (fs.folders.map Folder.name) := sortNames_perm _

theorem mp3CountOf_le {fs : FS} {n : String}
    (hcount : ∀ f ∈ fs.folders, (mp3Names f).length ≤ 255)
    : mp3CountOf fs n ≤ 255 := by
  unfold mp3CountOf
  cases hf : findFolder fs n with
  | none =>
    show (0 : Nat) ≤ 255
    omega
  | some fol => exact hcount fol (List.mem_of_find?_eq_some hf)

theorem process_sd_card_ok (fs : FS)
    (hwf : fs.wf)
    (hclean : fs.clean)
    (hN : fs.folders.length ≤ 99)
    (hcount : ∀ f ∈ fs.folders, (mp3Names f).length ≤ 255) :
    ∃ fs2 r,
      process_sd_card fs = PResult.ok fs2 r ∧
      r.folderMap = (collect_folders fs).zipWith (fun o j => (o, mkFolderName j))
        (List.range' 0 (collect_folders fs).length) ∧
      r.warnings = (collect_folders fs).filter (fun n => (sortedMp3sOf fs n).isEmpty) ∧
      r.fileReports = ((collect_folders fs).filter
          (fun n => !(sortedMp3sOf fs n).isEmpty)).map
        (fun n => (n, (sortedMp3sOf fs n).zipWith (fun o j => (o, mkFileName j))
          (List.range' 0 (sortedMp3sOf fs n).length))) ∧
      fs2.folders.length = fs.folders.length ∧
      (fs2.folders.map Folder.name).Nodup ∧
      ∀ k (hk : k < fs.folders.length) (hk2 : k < fs2.folders.length),
        ∃ j, ∃ (hj : j < (collect_folders fs).length), ∃ files2,
          (collect_folders fs)[j] = (fs.folders[k]).name ∧
          fs2.folders[k] = Folder.mk (mkFolderName j) files2 ∧
          files2.length = (fs.folders[k]).files.length ∧
          files2.Nodup ∧
          ∀ m (hm : m < (fs.folders[k]).files.length) (hm2 : m < files2.length),
            (∀ i (hi : i < (sortedMp3sOf fs ((fs.folders[k]).name)).length),
              (fs.folders[k]).files[m] = (sortedMp3sOf fs ((fs.folders[k]).name))[i] →
                files2[m] = mkFileName i) ∧
            ((fs.folders[k]).files[m] ∉ sortedMp3sOf fs ((fs.folders[k]).name) →
              files2[m] = (fs.folders[k]).files[m]) := by
  have hperm := collect_folders_perm fs
  have hsortlen : (collect_folders fs).length = fs.folders.length := by
    rw [hperm.length_eq, List.length_map]
  by_cases hnil : (collect_folders fs).isEmpty
  · -- no subdirectories: the driver returns at once with an empty report
    rw [List.isEmpty_iff] at hnil
    have hfnil : fs.folders = [] := by
      have := hperm.length_eq
      rw [hnil] at this
      simp only [List.length_nil, List.length_map] at this
      exact List.eq_nil_of_length_eq_zero this.symm
    refine ⟨fs, Report.mk [] [] [] 0, ?_, by rw [hnil]; rfl, by rw [hnil]; rfl,
      by rw [hnil]; rfl, rfl, by rw [hfnil]; exact List.nodup_nil, ?_⟩
    · unfold process_sd_card
      rw [if_pos (by rw [hnil]; rfl)]
    · intro k hk hk2
      rw [hfnil] at hk
      exact absurd hk (by simp)
  · have hnotempty : ¬ (collect_folders fs).isEmpty = true := hnil
    have hle : ¬ 99 < (collect_folders fs).length := by omega
    have hsnodup : (collect_folders fs).Nodup := (hperm.nodup_iff).mpr hwf.1
    obtain ⟨fs1, total2, hrun1, hlen1, hchar1⟩ :=
      fileLoop_ok (collect_folders fs) fs [] [] 0 hwf.1 hwf.2
        (fun f hf => (hclean f hf).2) hsnodup
        (fun n hn => hperm.subset hn)
        (fun n _ => mp3CountOf_le hcount)
    have hnames1 : fs1.folders.map Folder.name = fs.folders.map Folder.name := by
      apply List.ext_getElem
      · rw [List.length_map, List.length_map]
        omega
      · intro i h1 h2
        rw [List.getElem_map, List.getElem_map]
        exact (hchar1 i (by simpa using h2) (by simpa using h1)).1
    obtain ⟨folders2, hrun2, hlen2, hnd2, hchar2⟩ :=
      rename_two_phase_ok Folder.name setFolderName (fun _ _ => rfl) (fun _ _ _ => rfl)
        (collect_folders fs) mkFolderName fs1.folders
        (by rw [hnames1]; exact hwf.1)
        hsnodup
        (by
          intro o ho
          rw [hnames1]
          exact hperm.subset ho)
        (by
          intro x hx
          rw [hnames1] at hx
          obtain ⟨f, hf, hfe⟩ := List.mem_map.mp hx
          rw [← hfe]
          exact (hclean f hf).1)
        (fun i j _ _ h => mkFolderName_inj h)
        (fun i _ => startsTemp_mkFolderName i)
        (by
          intro i _
          by_cases h : mkFolderName i ∈ fs1.folders.map Folder.name
          · right
            rw [hnames1] at h
            exact (hperm.mem_iff).mpr h
          · left
            exact h)
    refine ⟨FS.mk folders2, Report.mk
      (((collect_folders fs).filter (fun n => !(sortedMp3sOf fs n).isEmpty)).map
        (fun n => (n, (sortedMp3sOf fs n).zipWith (fun o j => (o, mkFileName j))
          (List.range' 0 (sortedMp3sOf fs n).length))))
      ((collect_folders fs).filter (fun n => (sortedMp3sOf fs n).isEmpty))
      ((collect_folders fs).zipWith (fun o j => (o, mkFolderName j))
        (List.range' 0 (collect_folders fs).length))
      total2, ?_, rfl, rfl, rfl, by simpa using hlen2.trans hlen1, ?_, ?_⟩
    · unfold process_sd_card
      rw [if_neg hnotempty, if_neg hle]
      rw [hrun1]
      simp only
      rw [hrun2]
      rfl
    · show (folders2.map Folder.name).Nodup
      exact hnd2
    · intro k hk hk2
      have hk1 : k < fs1.folders.length := by omega
      have hk2f : k < folders2.length := by simpa using hk2
      obtain ⟨hname1, _, hpend1⟩ := hchar1 k hk hk1
      have hmemname : (fs.folders[k]).name ∈ collect_folders fs := by
        apply (hperm.mem_iff).mpr
        exact List.mem_map_of_mem Folder.name (List.getElem_mem hk)
      obtain ⟨j, hj, hje⟩ := List.mem_iff_getElem.mp hmemname
      obtain ⟨files2, hfe, hflen, hfnd, _, hfchar⟩ := hpend1 hmemname
      have hgn1 : (fs1.folders[k]).name = (collect_folders fs)[j] := by
        rw [hname1, hje]
      have := (hchar2 k hk1 (by omega)).1 j hj hgn1
      have hfolders2k : folders2[k] = Folder.mk (mkFolderName j) files2 := by
        rw [this, hfe]
        rfl
      refine ⟨j, hj, files2, hje, ?_, hflen, hfnd, hfchar⟩
      show folders2[k] = Folder.mk (mkFolderName j) files2
      exact hfolders2k

/-! ### Capacity errors and the marked-name counterexample -/

theorem findFolder_of_mem {fs : FS} {F : Folder}
    (hnd : (fs.folders.map Folder.name).Nodup) (hF : F ∈ fs.folders) :
    findFolder fs F.name = some F := by
  obtain ⟨fol, hfind, hfmem, hfname⟩ :=
    findFolder_mem (List.mem_map_of_mem Folder.name hF)
  obtain ⟨p, hp, hpe⟩ := List.mem_iff_getElem.mp hF
  have := findFolder_unique hnd hfind (by simpa using hp) (by rw [hpe])
  rw [hfind, ← this, hpe]

/-- C5: more than 99 subdirectories make the driver exit with status 1
and the capacity message on the error stream before any rename: the
state returned with the error is the input tree itself. -/
theorem process_folder_capacity_error (fs : FS) (h : 99 < fs.folders.length) :
    process_sd_card fs = PResult.err fs (tooManyFoldersMsg fs.folders.length) := by
  have hsortlen : (collect_folders fs).length = fs.folders.length := by
    rw [(collect_folders_perm fs).length_eq, List.length_map]
  have hnotempty : ¬ (collect_folders fs).isEmpty = true := by
    rw [List.isEmpty_iff_length_eq_zero]
    omega
  unfold process_sd_card
  rw [if_neg hnotempty, if_pos (by omega), hsortlen]

/-- Witness for C5: a root with exactly 100 empty folders. -/
theorem process_folder_capacity_error_witness :
    process_sd_card (FS.mk ((List.range 100).map (fun i => Folder.mk (pyStr i) []))) =
      PResult.err (FS.mk ((List.range 100).map (fun i => Folder.mk (pyStr i) [])))
        (tooManyFoldersMsg
          (FS.mk ((List.range 100).map (fun i => Folder.mk (pyStr i) []))).folders.length) :=
  process_folder_capacity_error _ (by simp)

/-- Counterexample for C1: a well-formed root of three folders, each
within every capacity bound, whose third folder is already named
"__dftemp_02".  Phase 1 of the folder rename targets exactly that name
for the second folder, `os.rename` hits an existing entry, and the run
aborts with an uncaught error instead of completing with the canonical
layout. -/
theorem process_marked_folder_crashes :
    FS.wf (FS.mk [Folder.mk " a" [], Folder.mk " b" [], Folder.mk "__dftemp_02" []]) ∧
    (FS.mk [Folder.mk " a" [], Folder.mk " b" [],
      Folder.mk "__dftemp_02" []]).folders.length ≤ 99 ∧
    (∀ f ∈ (FS.mk [Folder.mk " a" [], Folder.mk " b" [],
      Folder.mk "__dftemp_02" []]).folders, (mp3Names f).length ≤ 255) ∧
    process_sd_card (FS.mk [Folder.mk " a" [], Folder.mk " b" [],
      Folder.mk "__dftemp_02" []]) = PResult.oserror := by
  refine ⟨by decide, by decide, by decide, ?_⟩
  rfl

/-! ### The canonical layout after a successful run -/

/-- C1 (amended): on a well-formed root with 1 to 99 folders, at most
255 `.mp3` files per folder, and no name anywhere carrying the reserved
marker "__dftemp_", the driver completes; afterwards the folder names
are exactly "01" .. "NN" with no duplicates, assigned in discovery
(natural-sort) order as the folder report records, and each folder's
`.mp3` names are exactly "001.mp3" .. "MMM.mp3" assigned in discovery
order as the file reports record. -/
theorem process_canonical_result (fs : FS)
    (hwf : fs.wf) (hclean : fs.clean)
    (hN1 : 1 ≤ fs.folders.length) (hN : fs.folders.length ≤ 99)
    (hcount : ∀ f ∈ fs.folders, (mp3Names f).length ≤ 255) :
    ∃ fs2 r,
      process_sd_card fs = PResult.ok fs2 r ∧
      (fs2.folders.map Folder.name).Perm (canonFolderNames fs.folders.length) ∧
      r.folderMap = (collect_folders fs).zipWith (fun o j => (o, mkFolderName j))
        (List.range' 0 (collect_folders fs).length) ∧
      r.fileReports = ((collect_folders fs).filter
          (fun n => !(sortedMp3sOf fs n).isEmpty)).map
        (fun n => (n, (sortedMp3sOf fs n).zipWith (fun o j => (o, mkFileName j))
          (List.range' 0 (sortedMp3sOf fs n).length))) ∧
      fs2.folders.length = fs.folders.length ∧
      ∀ k (hk : k < fs.folders.length) (hk2 : k < fs2.folders.length),
        ((fs2.folders[k]).files.filter isMp3).Perm
          (canonFileNames (mp3Names (fs.folders[k])).length) := by
  obtain ⟨fs2, r, hrun, hfmap, hwarn, hreps, hlen, hnd2, hchar⟩ :=
    process_sd_card_ok fs hwf hclean hN hcount
  have hsortlen : (collect_folders fs).length = fs.folders.length := by
    rw [(collect_folders_perm fs).length_eq, List.length_map]
  have hsnodup : (collect_folders fs).Nodup :=
    ((collect_folders_perm fs).nodup_iff).mpr hwf.1
  refine ⟨fs2, r, hrun, ?_, hfmap, hreps, hlen, ?_⟩
  · -- the folder names after the run are a permutation of "01".."NN"
    apply List.perm_of_nodup_nodup_toFinset_eq hnd2
      (canonFolderNames_nodup fs.folders.length)
    apply Finset.ext
    intro x
    rw [List.mem_toFinset, List.mem_toFinset]
    constructor
    · intro hx
      obtain ⟨k, hk, hke⟩ := List.mem_iff_getElem.mp hx
      rw [List.getElem_map] at hke
      have hk2 : k < fs.folders.length := by
        rw [List.length_map] at hk
        omega
      obtain ⟨j, hj, files2, hje, hfe, _, _, _⟩ := hchar k hk2 (by simpa using hk)
      unfold canonFolderNames
      rw [← hke, hfe]
      exact List.mem_map_of_mem mkFolderName (List.mem_range.mpr (by omega))
    · intro hx
      unfold canonFolderNames at hx
      obtain ⟨j, hj, hje⟩ := List.mem_map.mp hx
      rw [List.mem_range] at hj
      have hj2 : j < (collect_folders fs).length := by omega
      have hmem : (collect_folders fs)[j] ∈ fs.folders.map Folder.name :=
        (collect_folders_perm fs).subset (List.getElem_mem hj2)
      obtain ⟨k, hk, hke⟩ := List.mem_iff_getElem.mp hmem
      rw [List.getElem_map] at hke
      have hk2 : k < fs.folders.length := by simpa using hk
      obtain ⟨j2, hj3, files2, hje2, hfe, _, _, _⟩ := hchar k hk2 (by rw [hlen]; exact hk2)
      have hjj : j2 = j := by
        apply (List.Nodup.getElem_inj_iff hsnodup).mp
        rw [hje2, hke]
      apply List.mem_iff_getElem.mpr
      refine ⟨k, by simpa using (show k < fs2.folders.length by rw [hlen]; exact hk2), ?_⟩
      rw [List.getElem_map, hfe, hjj, hje]
  · intro k hk hk2
    obtain ⟨j, hj, files2, hje, hfe, hflen, hfnd, hfchar⟩ := hchar k hk hk2
    have hmemname : (fs.folders[k]).name ∈ fs.folders.map Folder.name :=
      List.mem_map_of_mem Folder.name (List.getElem_mem hk)
    have hfind : findFolder fs ((fs.folders[k]).name) = some (fs.folders[k]) :=
      findFolder_of_mem hwf.1 (List.getElem_mem hk)
    have hsort_eq : sortedMp3sOf fs ((fs.folders[k]).name) = collect_mp3s (fs.folders[k]) := by
      unfold sortedMp3sOf
      rw [hfind]
    have hfiles2 : (fs2.folders[k]).files = files2 := by
      rw [hfe]
    rw [hfiles2]
    have hmlen : (sortedMp3sOf fs ((fs.folders[k]).name)).length =
        (mp3Names (fs.folders[k])).length := by
      rw [hsort_eq, collect_mp3s_length]
    rw [← hmlen]
    apply filter_perm_canon (fs.folders[k]).files files2 _ hfnd
    · intro x
      rw [hsort_eq]
      exact mem_collect_mp3s
    · exact hflen
    · exact hfchar

/-- Witness for C1 on a small tree: one folder holding one file. -/
theorem process_canonical_result_witness :
    ∃ fs2 r,
      process_sd_card (FS.mk [Folder.mk "My Songs" ["track 2.mp3"]]) = PResult.ok fs2 r ∧
      (fs2.folders.map Folder.name).Perm
        (canonFolderNames (FS.mk [Folder.mk "My Songs" ["track 2.mp3"]]).folders.length) ∧
      r.folderMap = (collect_folders (FS.mk [Folder.mk "My Songs" ["track 2.mp3"]])).zipWith
        (fun o j => (o, mkFolderName j))
        (List.range' 0 (collect_folders (FS.mk [Folder.mk "My Songs" ["track 2.mp3"]])).length) ∧
      r.fileReports = ((collect_folders (FS.mk [Folder.mk "My Songs" ["track 2.mp3"]])).filter
          (fun n => !(sortedMp3sOf (FS.mk [Folder.mk "My Songs" ["track 2.mp3"]]) n).isEmpty)).map
        (fun n => (n, (sortedMp3sOf (FS.mk [Folder.mk "My Songs" ["track 2.mp3"]]) n).zipWith
          (fun o j => (o, mkFileName j))
          (List.range' 0 (sortedMp3sOf (FS.mk [Folder.mk "My Songs" ["track 2.mp3"]]) n).length))) ∧
      fs2.folders.length = (FS.mk [Folder.mk "My Songs" ["track 2.mp3"]]).folders.length ∧
      ∀ k (hk : k < (FS.mk [Folder.mk "My Songs" ["track 2.mp3"]]).folders.length)
        (hk2 : k < fs2.folders.length),
        ((fs2.folders[k]).files.filter isMp3).Perm
          (canonFileNames (mp3Names ((FS.mk
            [Folder.mk "My Songs" ["track 2.mp3"]]).folders[k])).length) :=
  process_canonical_result (FS.mk [Folder.mk "My Songs" ["track 2.mp3"]])
    (by decide) (by decide) (by decide) (by decide) (by decide)

/-! ### Folders without mp3 files -/

/-- C8: a folder with no `.mp3` file is skipped by the file pass - it
appears among the warnings and owns no file report - yet it still takes
part in the folder rename and ends up under its two-digit name,
keeping its files. -/
theorem process_empty_folder_skipped (fs : FS)
    (hwf : fs.wf) (hclean : fs.clean)
    (hN : fs.folders.length ≤ 99)
    (hcount : ∀ f ∈ fs.folders, (mp3Names f).length ≤ 255)
    (F : Folder) (hF : F ∈ fs.folders) (hFe : mp3Names F = []) :
    ∃ fs2 r, process_sd_card fs = PResult.ok fs2 r ∧
      F.name ∈ r.warnings ∧
      (∀ e ∈ r.fileReports, e.1 ≠ F.name) ∧
      ∃ j, ∃ (hj : j < (collect_folders fs).length),
        (collect_folders fs)[j] = F.name ∧
        (F.name, mkFolderName j) ∈ r.folderMap ∧
        ∀ p (hp : p < fs.folders.length) (hp2 : p < fs2.folders.length),
          fs.folders[p] = F → fs2.folders[p] = Folder.mk (mkFolderName j) F.files := by
  obtain ⟨fs2, r, hrun, hfmap, hwarn, hreps, hlen, hnd2, hchar⟩ :=
    process_sd_card_ok fs hwf hclean hN hcount
  have hsortlen : (collect_folders fs).length = fs.folders.length := by
    rw [(collect_folders_perm fs).length_eq, List.length_map]
  have hsnodup : (collect_folders fs).Nodup :=
    ((collect_folders_perm fs).nodup_iff).mpr hwf.1
  have hfind : findFolder fs F.name = some F := findFolder_of_mem hwf.1 hF
  have hsort_eq : sortedMp3sOf fs F.name = collect_mp3s F := by
    unfold sortedMp3sOf
    rw [hfind]
  have hFempty : (sortedMp3sOf fs F.name).isEmpty = true := by
    rw [List.isEmpty_iff_length_eq_zero, hsort_eq, collect_mp3s_length, hFe]
    rfl
  have hFsorted : F.name ∈ collect_folders fs :=
    ((collect_folders_perm fs).mem_iff).mpr (List.mem_map_of_mem Folder.name hF)
  obtain ⟨j, hj, hje⟩ := List.mem_iff_getElem.mp hFsorted
  refine ⟨fs2, r, hrun, ?_, ?_, j, hj, hje, ?_, ?_⟩
  · rw [hwarn]
    exact List.mem_filter.mpr ⟨hFsorted, hFempty⟩
  · intro e he
    rw [hreps] at he
    obtain ⟨n, hn, hne⟩ := List.mem_map.mp he
    have hno : (!(sortedMp3sOf fs n).isEmpty) = true := (List.mem_filter.mp hn).2
    intro hcontra
    rw [← hne] at hcontra
    simp only at hcontra
    rw [hcontra, hFempty] at hno
    cases hno
  · rw [hfmap]
    apply List.mem_iff_getElem.mpr
    refine ⟨j, by rw [List.length_zipWith, List.length_range']; omega, ?_⟩
    rw [List.getElem_zipWith, List.getElem_range', hje]
    norm_num
  · intro p hp hp2 hpe
    obtain ⟨j2, hj2, files2, hje2, hfe, hflen, _, hfchar⟩ := hchar p hp hp2
    have hjj : j2 = j := by
      apply (List.Nodup.getElem_inj_iff hsnodup).mp
      rw [hje2, hje, hpe]
    have hfp_files : (fs.folders[p]).files = F.files := by rw [hpe]
    have hfp_name : (fs.folders[p]).name = F.name := by rw [hpe]
    have hfiles : files2 = F.files := by
      apply List.ext_getElem
      · rw [hflen, hfp_files]
      · intro m hm1 hm2
        have hm3 : m < (fs.folders[p]).files.length := by
          rw [hfp_files]
          exact hm2
        have hgeteq : (fs.folders[p]).files[m] = F.files[m] :=
          List.getElem_of_eq hfp_files hm3
        have hnot : (fs.folders[p]).files[m] ∉ sortedMp3sOf fs ((fs.folders[p]).name) := by
          rw [hfp_name, hsort_eq, hgeteq]
          intro hcontra
          have hmm := mem_collect_mp3s.mp hcontra
          have hmem2 : F.files[m] ∈ mp3Names F :=
            List.mem_filter.mpr ⟨hmm.1, hmm.2⟩
          rw [hFe] at hmem2
          cases hmem2
        have := (hfchar m hm3 hm1).2 hnot
        rw [this, hgeteq]
    rw [hfe, hjj, hfiles]

/-- Witness for C8: a single folder with no files at all. -/
theorem process_empty_folder_skipped_witness :
    ∃ fs2 r, process_sd_card (FS.mk [Folder.mk "music" []]) = PResult.ok fs2 r ∧
      (Folder.mk "music" []).name ∈ r.warnings ∧
      (∀ e ∈ r.fileReports, e.1 ≠ (Folder.mk "music" []).name) ∧
      ∃ j, ∃ (hj : j < (collect_folders (FS.mk [Folder.mk "music" []])).length),
        (collect_folders (FS.mk [Folder.mk "music" []]))[j] = (Folder.mk "music" []).name ∧
        ((Folder.mk "music" []).name, mkFolderName j) ∈ r.folderMap ∧
        ∀ p (hp : p < (FS.mk [Folder.mk "music" []]).folders.length)
          (hp2 : p < fs2.folders.length),
          (FS.mk [Folder.mk "music" []]).folders[p] = Folder.mk "music" [] →
            fs2.folders[p] = Folder.mk (mkFolderName j) (Folder.mk "music" []).files :=
  process_empty_folder_skipped (FS.mk [Folder.mk "music" []])
    (by decide) (by decide) (by decide) (by decide)
    (Folder.mk "music" []) (by decide) (by decide)

/-! ### Idempotence on a canonical tree -/

theorem canonFileNames_length (M : Nat) : (canonFileNames M).length = M := by
  unfold canonFileNames
  rw [List.length_map, List.length_range]

theorem filter_isMp3_canon (M : Nat) {l : List String}
    (hperm : l.Perm (canonFileNames M)) : l.filter isMp3 = l := by
  apply List.filter_eq_self.mpr
  intro x hx
  have hmem := hperm.subset hx
  unfold canonFileNames at hmem
  obtain ⟨i, _, hie⟩ := List.mem_map.mp hmem
  rw [← hie]
  exact isMp3_mkFileName i

theorem sorted_canon_of_perm {fs : FS} (hnd : (fs.folders.map Folder.name).Nodup)
    {F : Folder} (hF : F ∈ fs.folders) (M : Nat)
    (hp : F.files.Perm (canonFileNames M)) :
    sortedMp3sOf fs F.name = canonFileNames M := by
  unfold sortedMp3sOf
  rw [findFolder_of_mem hnd hF]
  show collect_mp3s F = canonFileNames M
  unfold collect_mp3s
  rw [filter_isMp3_canon M hp]
  exact sortNames_eq_of_pairwise hp (canonFileNames_pairwise M)

/-- C4: on a tree already in canonical form - the folder names a
permutation of "01".."NN" and each folder's files of
"001.mp3".."MMM.mp3" with M at most 255 - a run of the driver returns
the very same tree, and every pair of the folder report and of every
file report has equal old and new component, which is exactly what the
driver prints as "(unchanged)".  So a second run after any successful
run of the canonicalising pass changes nothing. -/
theorem process_idempotent_on_canonical (fs : FS)
    (hN : fs.folders.length ≤ 99)
    (hperm : (fs.folders.map Folder.name).Perm (canonFolderNames fs.folders.length))
    (hfiles : ∀ f ∈ fs.folders, ∃ M, M ≤ 255 ∧ f.files.Perm (canonFileNames M)) :
    ∃ r, process_sd_card fs = PResult.ok fs r ∧
      (∀ pr ∈ r.folderMap, pr.1 = pr.2) ∧
      (∀ e ∈ r.fileReports, ∀ pr ∈ e.2, pr.1 = pr.2) := by
  have hwf : fs.wf := by
    constructor
    · exact (hperm.nodup_iff).mpr (canonFolderNames_nodup _)
    · intro f hf
      obtain ⟨M, _, hp⟩ := hfiles f hf
      exact (hp.nodup_iff).mpr (canonFileNames_nodup M)
  have hclean : fs.clean := by
    intro f hf
    constructor
    · have hmem : f.name ∈ canonFolderNames fs.folders.length :=
        hperm.subset (List.mem_map_of_mem Folder.name hf)
      unfold canonFolderNames at hmem
      obtain ⟨i, _, hie⟩ := List.mem_map.mp hmem
      rw [← hie]
      exact startsTemp_mkFolderName i
    · intro x hx
      obtain ⟨M, _, hp⟩ := hfiles f hf
      have hmem := hp.subset hx
      unfold canonFileNames at hmem
      obtain ⟨i, _, hie⟩ := List.mem_map.mp hmem
      rw [← hie]
      exact startsTemp_mkFileName i
  have hcount : ∀ f ∈ fs.folders, (mp3Names f).length ≤ 255 := by
    intro f hf
    obtain ⟨M, hM, hp⟩ := hfiles f hf
    unfold mp3Names
    rw [filter_isMp3_canon M hp, hp.length_eq, canonFileNames_length]
    exact hM
  have hcoll : collect_folders fs = canonFolderNames fs.folders.length := by
    unfold collect_folders
    exact sortNames_eq_of_pairwise hperm (canonFolderNames_pairwise _)
  have hview : ∀ i (hil : i < (collect_folders fs).length),
      (collect_folders fs)[i] = mkFolderName i := by
    intro i hil
    have hil2 : i < (canonFolderNames fs.folders.length).length := by
      rw [← hcoll]
      exact hil
    rw [List.getElem_of_eq hcoll hil]
    unfold canonFolderNames
    rw [List.getElem_map]
    congr 1
    exact List.getElem_range _ _
  obtain ⟨fs2, r, hrun, hfmap, hwarn, hreps, hlen, hnd2, hchar⟩ :=
    process_sd_card_ok fs hwf hclean hN hcount
  have hfs2 : fs2 = fs := by
    have hfold : fs2.folders = fs.folders := by
      apply List.ext_getElem hlen
      intro p h2 h1
      obtain ⟨j, hj, files2, hje, hfe, hflen, hfnd, hfchar⟩ := hchar p h1 h2
      have hname : mkFolderName j = (fs.folders[p]).name := by
        rw [← hje]
        exact (hview j hj).symm
      obtain ⟨M, hM, hpf⟩ := hfiles (fs.folders[p]) (List.getElem_mem h1)
      have hsortp : sortedMp3sOf fs ((fs.folders[p]).name) = canonFileNames M :=
        sorted_canon_of_perm hwf.1 (List.getElem_mem h1) M hpf
      have hfileseq : files2 = (fs.folders[p]).files := by
        apply List.ext_getElem hflen
        intro m hm2 hm1
        have hmemf : (fs.folders[p]).files[m] ∈ canonFileNames M :=
          hpf.subset (List.getElem_mem hm1)
        obtain ⟨i, hi, hie⟩ := List.mem_iff_getElem.mp hmemf
        have hcg : (canonFileNames M)[i] = mkFileName i := by
          unfold canonFileNames
          rw [List.getElem_map]
          congr 1
          exact List.getElem_range _ _
        have hlt : i < (sortedMp3sOf fs ((fs.folders[p]).name)).length := by
          rw [hsortp]
          exact hi
        have heq2 : (fs.folders[p]).files[m] =
            (sortedMp3sOf fs ((fs.folders[p]).name))[i] := by
          rw [List.getElem_of_eq hsortp hlt, hie]
        have h3 := (hfchar m hm1 hm2).1 i hlt heq2
        rw [h3, ← hie, hcg]
      rw [hfe, hfileseq, hname]
    calc fs2 = FS.mk fs2.folders := rfl
    _ = FS.mk fs.folders := by rw [hfold]
    _ = fs := rfl
  refine ⟨r, ?_, ?_, ?_⟩
  · rw [hfs2] at hrun
    exact hrun
  · intro pr hpr
    rw [hfmap] at hpr
    obtain ⟨i, hi, hie⟩ := List.mem_iff_getElem.mp hpr
    have hizip : i < (collect_folders fs).length := by
      rw [List.length_zipWith, List.length_range'] at hi
      omega
    have hir : i < (List.range' 0 (collect_folders fs).length).length := by
      rw [List.length_range']
      exact hizip
    have hrg : (List.range' 0 (collect_folders fs).length)[i] = i := by
      rw [List.getElem_range']
      omega
    rw [← hie, List.getElem_zipWith]
    show (collect_folders fs)[i] =
      mkFolderName ((List.range' 0 (collect_folders fs).length)[i])
    rw [hrg, hview i hizip]
  · intro e he pr hpr
    rw [hreps] at he
    obtain ⟨n, hn, hne⟩ := List.mem_map.mp he
    have hnmem : n ∈ collect_folders fs := List.mem_of_mem_filter hn
    have hnmem2 : n ∈ fs.folders.map Folder.name :=
      (collect_folders_perm fs).subset hnmem
    obtain ⟨F, hF, hFe⟩ := List.mem_map.mp hnmem2
    obtain ⟨M, hM, hpF⟩ := hfiles F hF
    have hsortn : sortedMp3sOf fs n = canonFileNames M := by
      rw [← hFe]
      exact sorted_canon_of_perm hwf.1 hF M hpF
    have hpr2 : pr ∈ (sortedMp3sOf fs n).zipWith (fun o j => (o, mkFileName j))
        (List.range' 0 (sortedMp3sOf fs n).length) := by
      rw [← hne] at hpr
      exact hpr
    obtain ⟨i, hi, hie⟩ := List.mem_iff_getElem.mp hpr2
    have hizip : i < (sortedMp3sOf fs n).length := by
      rw [List.length_zipWith, List.length_range'] at hi
      omega
    have hir : i < (List.range' 0 (sortedMp3sOf fs n).length).length := by
      rw [List.length_range']
      exact hizip
    have hrg : (List.range' 0 (sortedMp3sOf fs n).length)[i] = i := by
      rw [List.getElem_range']
      omega
    have hview2 : (sortedMp3sOf fs n)[i] = mkFileName i := by
      rw [List.getElem_of_eq hsortn hizip]
      unfold canonFileNames
      rw [List.getElem_map]
      congr 1
      exact List.getElem_range _ _
    rw [← hie, List.getElem_zipWith]
    show (sortedMp3sOf fs n)[i] =
      mkFileName ((List.range' 0 (sortedMp3sOf fs n).length)[i])
    rw [hrg, hview2]

/-- Witness for C4: the canonical one-folder, one-file tree is a fixed
point and reports only unchanged pairs. -/
theorem process_idempotent_on_canonical_witness :
    ∃ r, process_sd_card (FS.mk [Folder.mk "01" ["001.mp3"]]) =
        PResult.ok (FS.mk [Folder.mk "01" ["001.mp3"]]) r ∧
      (∀ pr ∈ r.folderMap, pr.1 = pr.2) ∧
      (∀ e ∈ r.fileReports, ∀ pr ∈ e.2, pr.1 = pr.2) :=
  process_idempotent_on_canonical (FS.mk [Folder.mk "01" ["001.mp3"]])
    (by decide)
    (by decide)
    (by
      intro f hf
      have hfe : f = Folder.mk "01" ["001.mp3"] := by simpa using hf
      refine ⟨1, by omega, ?_⟩
      rw [hfe]
      decide)

/-! ### The file-count ceiling -/

theorem fileLoop_err :
    ∀ (pending : List String) (fs : FS) (reps : List (String × List (String × String)))
      (warns : List String) (total : Nat) (k : Nat) (hk : k < pending.length),
      (fs.folders.map Folder.name).Nodup →
      (∀ f ∈ fs.folders, f.files.Nodup) →
      (∀ f ∈ fs.folders, ∀ x ∈ f.files, startsTemp x = false) →
      pending.Nodup →
      (∀ n ∈ pending, n ∈ fs.folders.map Folder.name) →
      (∀ i (hik : i < k) (hil : i < pending.length), mp3CountOf fs (pending[i]) ≤ 255) →
      255 < mp3CountOf fs (pending[k]) →
      ∃ fs2,
        fileLoop pending fs reps warns total =
          Except.error (LoopFail.exit1 fs2
            (tooManyFilesMsg (pending[k]) (mp3CountOf fs (pending[k])))) ∧
        fs2.folders.length = fs.folders.length ∧
        ∀ p (hp : p < fs.folders.length) (hp2 : p < fs2.folders.length),
          (fs2.folders[p]).name = (fs.folders[p]).name ∧
          ((fs.folders[p]).name ∉ pending.take k → fs2.folders[p] = fs.folders[p]) ∧
          ((fs.folders[p]).name ∈ pending.take k →
            ∃ files2, fs2.folders[p] = Folder.mk ((fs.folders[p]).name) files2 ∧
              files2.length = (fs.folders[p]).files.length ∧
              files2.Nodup ∧
              ∀ m (hm : m < (fs.folders[p]).files.length) (hm2 : m < files2.length),
                (∀ j (hj : j < (sortedMp3sOf fs ((fs.folders[p]).name)).length),
                  (fs.folders[p]).files[m] = (sortedMp3sOf fs ((fs.folders[p]).name))[j] →
                    files2[m] = mkFileName j) ∧
                ((fs.folders[p]).files[m] ∉ sortedMp3sOf fs ((fs.folders[p]).name) →
                  files2[m] = (fs.folders[p]).files[m])) := by
  intro pending
  induction pending with
  | nil =>
    intro fs reps warns total k hk
    exact absurd hk (by simp)
  | cons n rest ih =>
    intro fs reps warns total k hk hndn hndf hcl hpnd hpmem hbefore hoff
    have hnin : n ∉ rest := (List.nodup_cons.mp hpnd).1
    have hrestnd : rest.Nodup := (List.nodup_cons.mp hpnd).2
    obtain ⟨fol, hfind, hfmem, hfname⟩ :=
      findFolder_mem (hpmem n (List.mem_cons_self n rest))
    have hsort_eq : sortedMp3sOf fs n = collect_mp3s fol := by
      unfold sortedMp3sOf
      rw [hfind]
    have hcount_eq : mp3CountOf fs n = (collect_mp3s fol).length := by
      unfold mp3CountOf
      rw [hfind, collect_mp3s_length]
    cases k with
    | zero =>
      have hoffn : 255 < (collect_mp3s fol).length := by
        rw [← hcount_eq]
        exact hoff
      have hempty : ¬ (collect_mp3s fol).isEmpty = true := by
        rw [List.isEmpty_iff_length_eq_zero]
        omega
      refine ⟨fs, ?_, rfl, ?_⟩
      · simp only [fileLoop, hfind]
        rw [if_neg hempty, if_pos hoffn]
        show Except.error (LoopFail.exit1 fs (tooManyFilesMsg n (collect_mp3s fol).length)) =
          Except.error (LoopFail.exit1 fs (tooManyFilesMsg n (mp3CountOf fs n)))
        rw [hcount_eq]
      · intro p hp hp2
        refine ⟨rfl, fun _ => rfl, ?_⟩
        intro hmem
        exact absurd hmem (by simp)
    | succ q =>
      have hq : q < rest.length := by
        simp only [List.length_cons] at hk
        omega
      have hn255 : mp3CountOf fs n ≤ 255 :=
        hbefore 0 (by omega) (by simp only [List.length_cons]; omega)
      have hoffr : 255 < mp3CountOf fs (rest[q]) := hoff
      by_cases hempty : (collect_mp3s fol).isEmpty
      · -- the head folder holds no mp3 file: warn and skip
        obtain ⟨fs2, hrun2, hlen2, hchar2⟩ :=
          ih fs reps (warns ++ [n]) total q hq hndn hndf hcl hrestnd
            (fun m hm => hpmem m (List.mem_cons_of_mem n hm))
            (fun i hik hil =>
              hbefore (i + 1) (by omega) (by simp only [List.length_cons]; omega))
            hoffr
        refine ⟨fs2, ?_, hlen2, ?_⟩
        · have hrunstep : fileLoop (n :: rest) fs reps warns total =
              fileLoop rest fs reps (warns ++ [n]) total := by
            simp only [fileLoop, hfind]
            rw [if_pos hempty]
          rw [hrunstep, hrun2]
          rfl
        · intro p hp hp2
          obtain ⟨hname2, hunch2, hpend2⟩ := hchar2 p hp hp2
          refine ⟨hname2, ?_, ?_⟩
          · intro hnm
            rw [List.take_succ_cons] at hnm
            exact hunch2 (fun hc => hnm (List.mem_cons_of_mem n hc))
          · intro hmem
            rw [List.take_succ_cons] at hmem
            cases List.mem_cons.mp hmem with
            | inr hmemr => exact hpend2 hmemr
            | inl hmemn =>
              have hnotr : (fs.folders[p]).name ∉ rest.take q := by
                rw [hmemn]
                intro hc
                exact hnin (List.mem_of_mem_take hc)
              have hunch := hunch2 hnotr
              refine ⟨(fs.folders[p]).files, by rw [hunch], rfl,
                hndf _ (List.getElem_mem hp), ?_⟩
              intro m hm hm2
              constructor
              · intro j hj
                exfalso
                rw [hmemn, hsort_eq] at hj
                rw [List.isEmpty_iff_length_eq_zero] at hempty
                omega
              · intro _
                rfl
      · -- the head folder is renamed, then the error arises further on
        have hcount : ¬ 255 < (collect_mp3s fol).length := by
          rw [← hcount_eq]
          omega
        obtain ⟨files2, hrun1, hflen, hfnd2, hfcl2, hfchar⟩ :=
          folder_step fol (hndf fol hfmem) (hcl fol hfmem)
        have hrunstep : fileLoop (n :: rest) fs reps warns total =
            fileLoop rest (updateFolderFiles fs n files2)
              (reps ++ [(n, (collect_mp3s fol).zipWith (fun o j => (o, mkFileName j))
                (List.range' 0 (collect_mp3s fol).length))]) warns
              (total + ((collect_mp3s fol).zipWith (fun o j => (o, mkFileName j))
                (List.range' 0 (collect_mp3s fol).length)).length) := by
          simp only [fileLoop, hfind]
          rw [if_neg hempty, if_neg hcount, hrun1]
        set fs1 := updateFolderFiles fs n files2 with hfs1
        have hnames1 : fs1.folders.map Folder.name = fs.folders.map Folder.name :=
          update_names fs n files2
        have hrest_find : ∀ m ∈ rest, findFolder fs1 m = findFolder fs m := by
          intro m hm
          exact findFolder_update_other fs n m files2 (fun hc => hnin (hc ▸ hm))
        have hrest_sorted : ∀ m ∈ rest, sortedMp3sOf fs1 m = sortedMp3sOf fs m := by
          intro m hm
          unfold sortedMp3sOf
          rw [hrest_find m hm]
        have hrest_count : ∀ m ∈ rest, mp3CountOf fs1 m = mp3CountOf fs m := by
          intro m hm
          unfold mp3CountOf
          rw [hrest_find m hm]
        have hlen1 : fs1.folders.length = fs.folders.length := update_length fs n files2
        obtain ⟨fs2, hrun2, hlen2, hchar2⟩ :=
          ih fs1 (reps ++ [(n, (collect_mp3s fol).zipWith (fun o j => (o, mkFileName j))
              (List.range' 0 (collect_mp3s fol).length))]) warns
            (total + ((collect_mp3s fol).zipWith (fun o j => (o, mkFileName j))
              (List.range' 0 (collect_mp3s fol).length)).length)
            q hq
            (by rw [hnames1]; exact hndn)
            (by
              intro f hf
              obtain ⟨f0, hf0, hfe⟩ := List.mem_map.mp hf
              by_cases h : f0.name = n
              · rw [← hfe, if_pos h]
                exact hfnd2
              · rw [← hfe, if_neg h]
                exact hndf f0 hf0)
            (by
              intro f hf
              obtain ⟨f0, hf0, hfe⟩ := List.mem_map.mp hf
              by_cases h : f0.name = n
              · rw [← hfe, if_pos h]
                exact hfcl2
              · rw [← hfe, if_neg h]
                exact hcl f0 hf0)
            hrestnd
            (by
              intro m hm
              rw [hnames1]
              exact hpmem m (List.mem_cons_of_mem n hm))
            (by
              intro i hik hil
              rw [hrest_count _ (List.getElem_mem hil)]
              exact hbefore (i + 1) (by omega) (by simp only [List.length_cons]; omega))
            (by
              rw [hrest_count _ (List.getElem_mem hq)]
              exact hoffr)
        rw [hrest_count _ (List.getElem_mem hq)] at hrun2
        refine ⟨fs2, ?_, by omega, ?_⟩
        · rw [hrunstep, hrun2]
          rfl
        · intro p hp hp2
          have hp1 : p < fs1.folders.length := by omega
          have hupget := update_getElem fs n files2 hp hp1
          have hname1p : (fs1.folders[p]).name = (fs.folders[p]).name := by
            rw [hupget]
            by_cases h : (fs.folders[p]).name = n <;> simp [h]
          obtain ⟨hname2, hunch2, hpend2⟩ := hchar2 p hp1 hp2
          refine ⟨by rw [hname2, hname1p], ?_, ?_⟩
          · intro hnm
            rw [List.take_succ_cons] at hnm
            have hne : (fs.folders[p]).name ≠ n :=
              fun hc => hnm (hc ▸ List.mem_cons_self n _)
            have hnr : (fs.folders[p]).name ∉ rest.take q :=
              fun hc => hnm (List.mem_cons_of_mem n hc)
            have h1 : fs1.folders[p] = fs.folders[p] := by rw [hupget, if_neg hne]
            have := hunch2 (by rw [hname1p]; exact hnr)
            rw [this, h1]
          · intro hmem
            rw [List.take_succ_cons] at hmem
            cases List.mem_cons.mp hmem with
            | inl hmemn =>
              have hfolk : fs.folders[p] = fol := findFolder_unique hndn hfind hp hmemn
              have h1 : fs1.folders[p] = Folder.mk ((fs.folders[p]).name) files2 := by
                rw [hupget, if_pos hmemn]
              have hnr : (fs1.folders[p]).name ∉ rest.take q := by
                rw [hname1p, hmemn]
                intro hc
                exact hnin (List.mem_of_mem_take hc)
              have hunch := hunch2 hnr
              rw [hfolk, hfname, hsort_eq]
              refine ⟨files2, ?_, hflen, hfnd2, hfchar⟩
              rw [hunch, h1, hfolk, hfname]
            | inr hmemr =>
              have hne : (fs.folders[p]).name ≠ n :=
                fun hc => hnin (hc ▸ List.mem_of_mem_take hmemr)
              have h1 : fs1.folders[p] = fs.folders[p] := by rw [hupget, if_neg hne]
              have hpend := hpend2 (by rw [hname1p]; exact hmemr)
              rw [h1] at hpend
              rw [← hrest_sorted _ (List.mem_of_mem_take hmemr)]
              exact hpend

/-- Counterexample for C6: a well-formed root within the folder ceiling
whose second folder (in natural order) holds 256 `.mp3` files, while
the first folder carries a file already named "__dftemp_002.mp3".
Phase 1 of the first folder's file rename targets exactly that name,
`os.rename` hits the existing entry, and the run dies with an uncaught
OSError: no exit status 1 and no capacity message ever happen although
a folder exceeds the 255-file ceiling. -/
theorem process_overfull_with_marked_file_crashes :
    FS.wf (FS.mk [Folder.mk "a" [" a.mp3", " b.mp3", "__dftemp_002.mp3"],
      Folder.mk "b" ((List.range 256).map mkFileName)]) ∧
    (FS.mk [Folder.mk "a" [" a.mp3", " b.mp3", "__dftemp_002.mp3"],
      Folder.mk "b" ((List.range 256).map mkFileName)]).folders.length ≤ 99 ∧
    (∃ f ∈ (FS.mk [Folder.mk "a" [" a.mp3", " b.mp3", "__dftemp_002.mp3"],
      Folder.mk "b" ((List.range 256).map mkFileName)]).folders,
      255 < (mp3Names f).length) ∧
    process_sd_card (FS.mk [Folder.mk "a" [" a.mp3", " b.mp3", "__dftemp_002.mp3"],
      Folder.mk "b" ((List.range 256).map mkFileName)]) = PResult.oserror := by
  refine ⟨⟨by decide, ?_⟩, by decide, ?_, ?_⟩
  · intro f hf
    cases List.mem_cons.mp hf with
    | inl h =>
      rw [h]
      decide
    | inr h =>
      have h2 : f = Folder.mk "b" ((List.range 256).map mkFileName) := by simpa using h
      rw [h2]
      exact canonFileNames_nodup 256
  · refine ⟨Folder.mk "b" ((List.range 256).map mkFileName),
      List.mem_cons_of_mem _ (List.mem_cons_self _ _), ?_⟩
    show 255 < (((List.range 256).map mkFileName).filter isMp3).length
    rw [filter_isMp3_canon 256
        (show ((List.range 256).map mkFileName).Perm (canonFileNames 256) from
          List.Perm.refl _), List.length_map, List.length_range]
    omega
  · rfl

/-- C6 (amended): on a well-formed tree free of the reserved marker and
within the 99-folder ceiling, when the folder at position `k` of the
natural-sort order is the first whose `.mp3` count exceeds 255, the
driver exits with status 1 carrying the exact capacity message for that
folder, no folder has been renamed, the offending folder and every
folder not yet reached are untouched, and the `.mp3` names inside the
folders processed before the offender are already the canonical
"001.mp3".."MMM.mp3". -/
theorem process_file_capacity_error (fs : FS)
    (hwf : fs.wf) (hclean : fs.clean)
    (hN : fs.folders.length ≤ 99)
    (k : Nat) (hk : k < (collect_folders fs).length)
    (hbefore : ∀ i (hik : i < k) (hil : i < (collect_folders fs).length),
      mp3CountOf fs ((collect_folders fs)[i]) ≤ 255)
    (hoff : 255 < mp3CountOf fs ((collect_folders fs)[k])) :
    ∃ fs2,
      process_sd_card fs = PResult.err fs2
        (tooManyFilesMsg ((collect_folders fs)[k])
          (mp3CountOf fs ((collect_folders fs)[k]))) ∧
      fs2.folders.length = fs.folders.length ∧
      fs2.folders.map Folder.name = fs.folders.map Folder.name ∧
      ∀ p (hp : p < fs.folders.length) (hp2 : p < fs2.folders.length),
        ((fs.folders[p]).name ∉ (collect_folders fs).take k →
          fs2.folders[p] = fs.folders[p]) ∧
        ((fs.folders[p]).name ∈ (collect_folders fs).take k →
          ((fs2.folders[p]).files.filter isMp3).Perm
            (canonFileNames (mp3Names (fs.folders[p])).length)) := by
  have hsortlen : (collect_folders fs).length = fs.folders.length := by
    rw [(collect_folders_perm fs).length_eq, List.length_map]
  have hnotempty : ¬ (collect_folders fs).isEmpty = true := by
    rw [List.isEmpty_iff_length_eq_zero]
    omega
  have hle : ¬ 99 < (collect_folders fs).length := by omega
  have hsnodup : (collect_folders fs).Nodup :=
    ((collect_folders_perm fs).nodup_iff).mpr hwf.1
  obtain ⟨fs2, hrun, hlen, hchar⟩ :=
    fileLoop_err (collect_folders fs) fs [] [] 0 k hk hwf.1 hwf.2
      (fun f hf => (hclean f hf).2) hsnodup
      (fun n hn => (collect_folders_perm fs).subset hn)
      hbefore hoff
  refine ⟨fs2, ?_, hlen, ?_, ?_⟩
  · unfold process_sd_card
    rw [if_neg hnotempty, if_neg hle, hrun]
  · apply List.ext_getElem
    · rw [List.length_map, List.length_map]
      omega
    · intro i h1 h2
      rw [List.getElem_map, List.getElem_map]
      exact (hchar i (by simpa using h2) (by simpa using h1)).1
  · intro p hp hp2
    obtain ⟨hname2, hunch, hpend⟩ := hchar p hp hp2
    refine ⟨hunch, ?_⟩
    intro hmem
    obtain ⟨files2, hfe, hflen, hfnd, hfchar⟩ := hpend hmem
    have hfind : findFolder fs ((fs.folders[p]).name) = some (fs.folders[p]) :=
      findFolder_of_mem hwf.1 (List.getElem_mem hp)
    have hsort_eq : sortedMp3sOf fs ((fs.folders[p]).name) =
        collect_mp3s (fs.folders[p]) := by
      unfold sortedMp3sOf
      rw [hfind]
    have hfiles2 : (fs2.folders[p]).files = files2 := by rw [hfe]
    rw [hfiles2]
    have hmlen : (sortedMp3sOf fs ((fs.folders[p]).name)).length =
        (mp3Names (fs.folders[p])).length := by
      rw [hsort_eq, collect_mp3s_length]
    rw [← hmlen]
    apply filter_perm_canon (fs.folders[p]).files files2 _ hfnd
    · intro x
      rw [hsort_eq]
      exact mem_collect_mp3s
    · exact hflen
    · exact hfchar

/-- Witness for C6: a single folder with 256 `.mp3` files makes the
driver exit with the capacity message and an unchanged tree. -/
theorem process_file_capacity_error_witness :
    ∃ fs2,
      process_sd_card (FS.mk [Folder.mk "b" ((List.range 256).map mkFileName)]) =
        PResult.err fs2
          (tooManyFilesMsg
            ((collect_folders (FS.mk [Folder.mk "b"
              ((List.range 256).map mkFileName)])).get ⟨0, by decide⟩)
            (mp3CountOf (FS.mk [Folder.mk "b" ((List.range 256).map mkFileName)])
              ((collect_folders (FS.mk [Folder.mk "b"
                ((List.range 256).map mkFileName)])).get ⟨0, by decide⟩))) ∧
      fs2.folders.length =
        (FS.mk [Folder.mk "b" ((List.range 256).map mkFileName)]).folders.length ∧
      fs2.folders.map Folder.name =
        (FS.mk [Folder.mk "b" ((List.range 256).map mkFileName)]).folders.map Folder.name ∧
      ∀ p (hp : p < (FS.mk [Folder.mk "b"
          ((List.range 256).map mkFileName)]).folders.length)
        (hp2 : p < fs2.folders.length),
        (((FS.mk [Folder.mk "b" ((List.range 256).map mkFileName)]).folders[p]).name ∉
            (collect_folders (FS.mk [Folder.mk "b"
              ((List.range 256).map mkFileName)])).take 0 →
          fs2.folders[p] =
            (FS.mk [Folder.mk "b" ((List.range 256).map mkFileName)]).folders[p]) ∧
        (((FS.mk [Folder.mk "b" ((List.range 256).map mkFileName)]).folders[p]).name ∈
            (collect_folders (FS.mk [Folder.mk "b"
              ((List.range 256).map mkFileName)])).take 0 →
          ((fs2.folders[p]).files.filter isMp3).Perm
            (canonFileNames (mp3Names ((FS.mk [Folder.mk "b"
              ((List.range 256).map mkFileName)]).folders[p])).length)) :=
  process_file_capacity_error (FS.mk [Folder.mk "b" ((List.range 256).map mkFileName)])
    (by
      constructor
      · decide
      · intro f hf
        have h2 : f = Folder.mk "b" ((List.range 256).map mkFileName) := by simpa using hf
        rw [h2]
        exact canonFileNames_nodup 256)
    (by
      intro f hf
      have h2 : f = Folder.mk "b" ((List.range 256).map mkFileName) := by simpa using hf
      rw [h2]
      refine ⟨by decide, ?_⟩
      intro x hx
      obtain ⟨i, _, hie⟩ := List.mem_map.mp hx
      rw [← hie]
      exact startsTemp_mkFileName i)
    (by decide)
    0 (by decide)
    (fun i hik hil => absurd hik (by omega))
    (by
      show 255 < mp3CountOf (FS.mk [Folder.mk "b" ((List.range 256).map mkFileName)]) "b"
      unfold mp3CountOf
      rw [show findFolder (FS.mk [Folder.mk "b" ((List.range 256).map mkFileName)]) "b" =
        some (Folder.mk "b" ((List.range 256).map mkFileName)) from rfl]
      show 255 < (((List.range 256).map mkFileName).filter isMp3).length
      rw [filter_isMp3_canon 256
        (show ((List.range 256).map mkFileName).Perm (canonFileNames 256) from
          List.Perm.refl _), List.length_map, List.length_range]
      omega)
